import Mathlib

/-!
Verification development for the push50 program (`push50.py`).

The Python source is shallowly embedded:
* Python dicts become association lists (`Dict`), with `lookupD`/`setD`
  mirroring subscript reads and writes (update-in-place, append if absent).
* YAML values become the inductive `Val` (numbers, strings, lists).
* Exceptions become `Except PyExc` where `PyExc` distinguishes the exception
  classes the source discriminates on (`Error`/`InvalidSlug` from push50,
  `GitError` from the git library, and everything else).
* Interactive subprocess sessions (`pexpect`) are embedded as functions of the
  match outcome, returning the trace of process actions alongside the result.
* For the mutation claim about `_merge_cs50_yaml`, the merge is additionally
  embedded against an explicit heap (`Store`) of Python objects, with
  `copy.deepcopy` modelled as a fueled, memoized graph copy.
-/

namespace Push50

/-- Python exceptions, as discriminated by the source's `except` clauses.
`error` covers `push50.Error`, `invalidSlug` its subclass `push50.InvalidSlug`
(both caught by `except Error`), `gitError` covers `git.GitError`, and
`other` every unrelated exception class. -/
inductive PyExc where
  | gitError : PyExc
  | error (msg : String) : PyExc
  | invalidSlug (msg : String) : PyExc
  | other (tag : Nat) : PyExc
deriving DecidableEq, Repr

/-- `except Error` in push50 catches `Error` and its subclass `InvalidSlug`. -/
def PyExc.isPushError : PyExc → Bool
  | .error _ => true
  | .invalidSlug _ => true
  | _ => false

/-- YAML/Python values appearing in `.cs50.yaml` configs. -/
inductive Val where
  | vNat (n : Nat)
  | vStr (s : String)
  | vList (xs : List Val)

mutual

/-- Structural equality test for `Val` (Python `==` on these values). -/
def Val.beq : Val → Val → Bool
  | .vNat a, .vNat b => a = b
  | .vStr a, .vStr b => a = b
  | .vList xs, .vList ys => Val.beqList xs ys
  | _, _ => false

/-- Structural equality test for lists of `Val`. -/
def Val.beqList : List Val → List Val → Bool
  | [], [] => true
  | x :: xs, y :: ys => Val.beq x y && Val.beqList xs ys
  | _, _ => false

end

mutual

theorem Val.beq_iff : ∀ a b : Val, Val.beq a b = true ↔ a = b
  | .vNat _, .vNat _ => by simp [Val.beq]
  | .vNat _, .vStr _ => by simp [Val.beq]
  | .vNat _, .vList _ => by simp [Val.beq]
  | .vStr _, .vNat _ => by simp [Val.beq]
  | .vStr _, .vStr _ => by simp [Val.beq]
  | .vStr _, .vList _ => by simp [Val.beq]
  | .vList _, .vNat _ => by simp [Val.beq]
  | .vList _, .vStr _ => by simp [Val.beq]
  | .vList xs, .vList ys => by
      simp [Val.beq, Val.beqList_iff xs ys]

theorem Val.beqList_iff : ∀ xs ys : List Val, Val.beqList xs ys = true ↔ xs = ys
  | [], [] => by simp [Val.beqList]
  | [], _ :: _ => by simp [Val.beqList]
  | _ :: _, [] => by simp [Val.beqList]
  | x :: xs, y :: ys => by
      simp [Val.beqList, Val.beq_iff x y, Val.beqList_iff xs ys]

end

instance : DecidableEq Val := fun a b =>
  decidable_of_iff (Val.beq a b = true) (Val.beq_iff a b)

/-- `isinstance(v, list)` -/
def Val.isList : Val → Bool
  | .vList _ => true
  | _ => false

/-- Association-list model of a Python dict. -/
abbrev Dict (α : Type) := List (String × α)

/-- Dict subscript read: `d[k]`, `none` for `KeyError`. -/
def lookupD {α : Type} : Dict α → String → Option α
  | [], _ => none
  | (k, v) :: rest, key => if k = key then some v else lookupD rest key

/-- Dict subscript write `d[k] = v`: update in place if the key is present,
append at the end otherwise (Python dict insertion-order semantics). -/
def setD {α : Type} : Dict α → String → α → Dict α
  | [], key, v => [(key, v)]
  | (k, w) :: rest, key, v =>
      if k = key then (k, v) :: rest else (k, w) :: setD rest key v

/-- `k in d` -/
def containsD {α : Type} (d : Dict α) (k : String) : Bool :=
  (lookupD d k).isSome

/-- The `User` namedtuple: `["name", "password", "email", "repo"]`.
`password` is `None` (here `none`) on the SSH path. -/
structure User where
  name : String
  password : Option String
  email : String
  repo : String
deriving DecidableEq, Repr

/-! ## Slug parsing (`_parse_slug`) -/

/-- Whether the char list `pre` is an initial segment of `l`
(Python `str.startswith`, which compares character-wise). -/
def listStarts : List Char → List Char → Bool
  | [], _ => true
  | _ :: _, [] => false
  | x :: xs, y :: ys => x = y && listStarts xs ys

/-- Python `s.startswith(pre)`. -/
def pyStartsWith (s pre : String) : Bool := listStarts pre.toList s.toList

/-- Python `s.endswith(suf)`. -/
def pyEndsWith (s suf : String) : Bool := listStarts suf.toList.reverse s.toList.reverse

/-- Python slicing `s[n:]` (character counted, like all Python string ops). -/
def pyDrop (s : String) (n : Nat) : String := ⟨s.toList.drop n⟩

/-- Python `s.split(c)` (single-character separator), on char lists. -/
def splitCharAux (c : Char) : List Char → List (List Char)
  | [] => [[]]
  | x :: xs =>
      if x = c then [] :: splitCharAux c xs
      else
        match splitCharAux c xs with
        | [] => [[x]]
        | g :: gs => (x :: g) :: gs

/-- Python `s.split(c)`. -/
def pySplit (s : String) (c : Char) : List String :=
  (splitCharAux c s.toList).map (fun l => ⟨l⟩)

/-- Python `str.find(c, start)`: index of the first occurrence of `c` at or
after `start`, `-1` if none; helper scanning a char list from index `i`. -/
def pyFindAux : List Char → Char → Nat → Option Nat
  | [], _, _ => none
  | x :: xs, c, i => if x = c then some i else pyFindAux xs c (i + 1)

/-- Python `slug.find(c, start)` (for a single-character needle). -/
def pyFind (s : String) (c : Char) (start : Nat) : Int :=
  match pyFindAux (s.toList.drop start) c start with
  | some i => (i : Int)
  | none => -1

/-- Python `s.strip("/")`: remove all leading and all trailing `/` chars. -/
def stripChar (c : Char) (s : String) : String :=
  let l := s.toList.dropWhile (· = c)
  ⟨(l.reverse.dropWhile (· = c)).reverse⟩

/-- Message for a slug with both a leading and a trailing slash. -/
def msgBoth (s : String) : String :=
  "Invalid slug. Did you mean " ++ s ++ ", without the leading and trailing slashes?"

/-- Message for a slug with a leading slash only. -/
def msgLead (s : String) : String :=
  "Invalid slug. Did you mean " ++ s ++ ", without the leading slash?"

/-- Message for a slug with a trailing slash only. -/
def msgTrail (s : String) : String :=
  "Invalid slug. Did you mean " ++ s ++ ", without the trailing slash?"

/-- The head of `_parse_slug`: slash validation, then locating the second `/`
and splitting into `org`, `repo` and `remainder`. -/
def parseSlugParts (slug : String) : Except PyExc (String × String × String) :=
  if pyStartsWith slug "/" && pyEndsWith slug "/" then
    .error (.invalidSlug (msgBoth (stripChar '/' slug)))
  else if pyStartsWith slug "/" then
    .error (.invalidSlug (msgLead (stripChar '/' slug)))
  else if pyEndsWith slug "/" then
    .error (.invalidSlug (msgTrail (stripChar '/' slug)))
  else
    let idx := pyFind slug '/' (pyFind slug '/' 0 + 1).toNat
    if idx = -1 then .error (.invalidSlug slug)
    else
      let remainder := pyDrop slug (idx.toNat + 1)
      let org := ((pySplit slug '/').getD 0 "")
      let repo := ((pySplit slug '/').getD 1 "")
      .ok (org, repo, remainder)

/-- The branch-matching loop of `_parse_slug.parse_branch`, over a given
candidate list: first branch `b` (in listing order) with
`remainder.startswith(b + "/")` wins, yielding `(b, remainder[len(b)+1:])`;
otherwise `InvalidSlug(slug)`. -/
def parseBranchFrom (branches : List String) (remainder : String) (slug : String) :
    Except PyExc (String × String) :=
  match branches with
  | [] => .error (.invalidSlug slug)
  | b :: rest =>
      if pyStartsWith remainder (b ++ "/") then .ok (b, pyDrop remainder (b.length + 1))
      else parseBranchFrom rest remainder slug

/-- `_parse_slug` given the branch candidate listing (the listing itself is a
network/git effect, taken as a parameter): returns `(org, repo, branch,
problem-dir)`. -/
def parseSlug (slug : String) (branches : List String) :
    Except PyExc (String × String × String × String) := do
  let (org, repo, remainder) ← parseSlugParts slug
  let (branch, problem) ← parseBranchFrom branches remainder slug
  pure (org, repo, branch, problem)

/-! ## SSH authentication (`_authenticate_ssl`) -/

/-- Process-level actions performed by the SSH probe. -/
inductive SshAction where
  | spawn (cmd : String)
  | close
deriving DecidableEq, Repr

/-- The four `pexpect` alternatives of the SSH probe, in pattern order:
success banner (with the captured username), passphrase prompt, permission
denied, host-key confirmation. -/
inductive SshOutcome where
  | success (username : String)
  | passphrasePrompt
  | permissionDenied
  | hostKeyPrompt
deriving DecidableEq, Repr

/-- `_authenticate_ssl`: spawn `ssh git@github.com`, match one of the four
patterns, close the child, then yield a `User` exactly when the success
banner matched (`i == 0`), else yield `None`. -/
def authenticateSsl (org : String) (outcome : SshOutcome) :
    List SshAction × Option User :=
  let trace := [SshAction.spawn "ssh git@github.com", SshAction.close]
  match outcome with
  | .success username =>
      (trace, some { name := username
                     password := none
                     email := username ++ "@users.noreply.github.com"
                     repo := "git@github.com/" ++ org ++ "/" ++ username })
  | _ => (trace, none)

/-! ## HTTPS authentication (`_authenticate_https`) -/

/-- The GitHub API response to `GET /user`, as far as the source inspects it:
presence of the `X-GitHub-OTP` header, the status code, and the `login`
field of the JSON body. -/
structure HttpResponse where
  hasOtpHeader : Bool
  statusCode : Nat
  login : String
deriving DecidableEq, Repr

/-- The three `pexpect` alternatives of the `git credential fill` session:
`Username:` prompt, `Password:` prompt, or a combined
`username=...\npassword=...` capture. -/
inductive FillOutcome where
  | promptUsername
  | promptPassword
  | creds (username password : String)
deriving DecidableEq, Repr

/-- The external interactions of one HTTPS authentication attempt: what the
credential-fill session produced, what the interactive prompts would return,
and the API response to the validation request. -/
structure HttpsEnv where
  fill : FillOutcome
  inputUsername : String
  inputPassword : String
  response : HttpResponse
deriving DecidableEq, Repr

/-- The two-factor error message raised when `X-GitHub-OTP` is present. -/
def twoFactorMsg : String :=
  "Looks like you have two-factor authentication enabled!"
    ++ " Please generate a personal access token and use it as your password."
    ++ " See https://help.github.com/articles/creating-a-personal-access-token-for-the-command-line for more info."

/-- External actions of the HTTPS flow: the API validation request
(`requests.get(..., auth=(username, password))`) and the credential-cache
approval (`git ... credential approve`). -/
inductive HttpsAction where
  | apiValidate (username password : String)
  | credentialApprove (username password : String)
deriving DecidableEq, Repr

/-- The body of `_authenticate_https` (steps inside the `try`): read
credentials from the fill session (`i == 2` alone yields a pair), fall back
to prompting when the password is falsy, validate against the API, fail on
the OTP header or a non-200 status, canonicalize the username to the API's
`login`, approve the credential into the cache, and yield the `User`. -/
def authenticateHttpsCore (org : String) (env : HttpsEnv) :
    Except PyExc (List HttpsAction × User) :=
  let fillPair : Option String × Option String :=
    match env.fill with
    | .creds u p => (some u, some p)
    | _ => (none, none)
  -- `if not password:` — None and "" are both falsy
  let notPassword : Bool :=
    match fillPair.2 with
    | none => true
    | some p => p = ""
  let username := if notPassword then env.inputUsername else (fillPair.1).getD ""
  let password := if notPassword then env.inputPassword else (fillPair.2).getD ""
  let validate := HttpsAction.apiValidate username password
  if env.response.hasOtpHeader then
    .error (.error twoFactorMsg)
  else if env.response.statusCode ≠ 200 then
    .error (.error (if env.response.statusCode = 401 then
      "Invalid username and/or password." else "Could not authenticate user."))
  else
    let username := env.response.login
    .ok ([validate, HttpsAction.credentialApprove username password],
         { name := username
           password := some password
           email := username ++ "@users.noreply.github.com"
           repo := "https://" ++ username ++ "@github.com/" ++ org ++ "/" ++ username })

/-- Cleanup actions of the `except:` block of `_authenticate_https`. -/
inductive CleanupAction where
  | cacheExit
  | keychainErase
deriving DecidableEq, Repr

/-- The `except:` block of `_authenticate_https`, given the original exception
and the outcome of each erase command (`none` = the command succeeded):

    except:
        git.credential_cache(exit, socket=socket)      # not guarded
        try:
            ... git.credential_osxkeychain("erase", ...)
        except GitError:
            pass
        raise

If the cache-exit command itself raises, that exception propagates out of the
handler (the keychain erase and the re-raise are never reached); a `GitError`
from the keychain erase is swallowed; any other exception from it propagates;
otherwise the original exception is re-raised. Returns the actions issued and
the exception that propagates. -/
def httpsFailureCleanup (orig : PyExc) (cacheExitErr : Option PyExc)
    (keychainErr : Option PyExc) : List CleanupAction × PyExc :=
  match cacheExitErr with
  | some e => ([CleanupAction.cacheExit], e)
  | none =>
      match keychainErr with
      | some e =>
          if e = PyExc.gitError then
            ([CleanupAction.cacheExit, CleanupAction.keychainErase], orig)
          else
            ([CleanupAction.cacheExit, CleanupAction.keychainErase], e)
      | none => ([CleanupAction.cacheExit, CleanupAction.keychainErase], orig)

/-- `_authenticate_https` with its exception handler wrapped around the body. -/
def authenticateHttps (org : String) (env : HttpsEnv) (cacheExitErr : Option PyExc)
    (keychainErr : Option PyExc) :
    Except (List CleanupAction × PyExc) (List HttpsAction × User) :=
  match authenticateHttpsCore org env with
  | .ok r => .ok r
  | .error exc => .error (httpsFailureCleanup exc cacheExitErr keychainErr)

/-! ## Config merge (`_merge_cs50_yaml`), pure value-level embedding -/

/-- Python `+` on the values occurring in configs: list concatenation,
numeric addition, string concatenation; `TypeError` otherwise (in particular
for a list and a non-list). -/
def pyAdd : Val → Val → Except Unit Val
  | .vList xs, .vList ys => .ok (.vList (xs ++ ys))
  | .vNat a, .vNat b => .ok (.vNat (a + b))
  | .vStr a, .vStr b => .ok (.vStr (a ++ b))
  | _, _ => .error ()

/-- The inner loop of `_merge_cs50_yaml` (`for key in cs50[tool]`), acting on
the accumulator `acc` (initially the deep copy of `root_cs50[tool]`):

    if key in root_cs50[tool] and isinstance(root_cs50[tool][key], list):
        result[tool][key] = result[tool][key] + cs50[tool][key]
    else:
        result[tool][key] = cs50[tool][key]
-/
def mergeToolGo (rootT : Dict Val) : Dict Val → List (String × Val) → Except Unit (Dict Val)
  | acc, [] => .ok acc
  | acc, (key, v) :: rest =>
      match lookupD rootT key with
      | some rv =>
          if rv.isList then
            match lookupD acc key with
            | some cur =>
                match pyAdd cur v with
                | .ok nv => mergeToolGo rootT (setD acc key nv) rest
                | .error e => .error e
            | none => .error ()
          else mergeToolGo rootT (setD acc key v) rest
      | none => mergeToolGo rootT (setD acc key v) rest

/-- The outer loop of `_merge_cs50_yaml` (`for tool in cs50`), acting on the
accumulator (initially the deep copy of `root_cs50`):

    if tool not in root_cs50:
        result[tool] = cs50[tool]
        continue
    ...inner loop...
-/
def mergeGo (root : Dict (Dict Val)) :
    Dict (Dict Val) → List (String × Dict Val) → Except Unit (Dict (Dict Val))
  | acc, [] => .ok acc
  | acc, (tool, localT) :: rest =>
      match lookupD root tool with
      | none => mergeGo root (setD acc tool localT) rest
      | some rootT =>
          match lookupD acc tool with
          | none => .error ()
          | some curT =>
              match mergeToolGo rootT curT localT with
              | .ok newT => mergeGo root (setD acc tool newT) rest
              | .error e => .error e

/-- `_merge_cs50_yaml(cs50, root_cs50)`: start from a (deep) copy of
`root_cs50` and fold the local config into it. At this value level the deep
copy is the identity; the heap-level embedding below accounts for the
mutation behaviour. A `TypeError` from `+` is the `.error` case. -/
def mergeCs50Yaml (cs50 root : Dict (Dict Val)) : Except Unit (Dict (Dict Val)) :=
  mergeGo root root cs50

/-- A second definition following the spec's words, for comparison with
`mergeCs50Yaml`: the merged value at tool `t`, key `k`, computed from the two
lookups alone — root-then-local append when both are present and the root's
value is a sequence, local override for every other key present in both,
pass-through for keys present on one side only. (The branch pairing a root
sequence with a local non-sequence is unreachable whenever the merge
succeeds.) -/
def specMergeVal : Option Val → Option Val → Option Val
  | none, rv => rv
  | some lv, none => some lv
  | some lv, some rv =>
      match rv, lv with
      | .vList xs, .vList ys => some (.vList (xs ++ ys))
      | .vList _, _ => some lv
      | _, _ => some lv

/-- Two-level lookup `cfg[t][k]` as an `Option`. -/
def lookup2 (cfg : Dict (Dict Val)) (t k : String) : Option Val :=
  (lookupD cfg t).bind (fun d => lookupD d k)

/-! ### Dict lemmas -/

@[simp]
theorem lookupD_nil {α : Type} (k : String) : lookupD ([] : Dict α) k = none := rfl

theorem lookupD_cons {α : Type} (k key : String) (v : α) (d : Dict α) :
    lookupD ((k, v) :: d) key = if k = key then some v else lookupD d key := rfl

theorem lookupD_setD_self {α : Type} (d : Dict α) (k : String) (v : α) :
    lookupD (setD d k v) k = some v := by
  induction d with
  | nil => simp [setD, lookupD]
  | cons p rest ih =>
      obtain ⟨k', w⟩ := p
      by_cases h : k' = k
      · subst h; simp [setD, lookupD]
      · simp [setD, lookupD, h, ih]

theorem lookupD_setD_ne {α : Type} (d : Dict α) (k k' : String) (v : α) (h : k ≠ k') :
    lookupD (setD d k v) k' = lookupD d k' := by
  induction d with
  | nil => simp [setD, lookupD, h]
  | cons p rest ih =>
      obtain ⟨k'', w⟩ := p
      by_cases h2 : k'' = k
      · subst h2; simp [setD, lookupD, h]
      · simp [setD, lookupD, h2, ih]

theorem lookupD_eq_none_of_not_mem {α : Type} (d : Dict α) (k : String)
    (h : k ∉ d.map Prod.fst) : lookupD d k = none := by
  induction d with
  | nil => rfl
  | cons p rest ih =>
      obtain ⟨k', v⟩ := p
      simp only [List.map_cons, List.mem_cons] at h
      push_neg at h
      have hne : k' ≠ k := fun he => h.1 he.symm
      simp [lookupD, hne, ih h.2]

theorem lookupD_mem {α : Type} {d : Dict α} {k : String} {v : α}
    (h : lookupD d k = some v) : (k, v) ∈ d := by
  induction d with
  | nil => simp [lookupD] at h
  | cons p rest ih =>
      obtain ⟨k', w⟩ := p
      by_cases h2 : k' = k
      · subst h2
        simp [lookupD] at h
        simp [h]
      · simp [lookupD, h2] at h
        exact List.mem_cons_of_mem _ (ih h)

/-! ### Characterization of the merge loops -/

/-- What the inner loop does to each key, relative to the accumulator it
started from: keys not named by the processed entries keep their accumulator
value; a processed key whose root value is a list ends up as the Python sum
of the accumulator value and the local value; every other processed key is
overridden by the local value. -/
theorem mergeToolGo_lookup (rootT : Dict Val) :
    ∀ (entries : List (String × Val)) (acc res : Dict Val),
      (entries.map Prod.fst).Nodup →
      mergeToolGo rootT acc entries = .ok res →
      ∀ k,
        (lookupD entries k = none → lookupD res k = lookupD acc k) ∧
        (∀ v, lookupD entries k = some v →
          ((∀ rv, lookupD rootT k = some rv → rv.isList = true →
              ∃ cur nv, lookupD acc k = some cur ∧ pyAdd cur v = .ok nv ∧
                lookupD res k = some nv) ∧
           ((lookupD rootT k = none ∨
               ∃ rv, lookupD rootT k = some rv ∧ rv.isList = false) →
              lookupD res k = some v))) := by
  intro entries
  induction entries with
  | nil =>
      intro acc res _ hok k
      simp only [mergeToolGo] at hok
      cases hok
      exact ⟨fun _ => rfl, fun v hv => by simp [lookupD] at hv⟩
  | cons p rest ih =>
      obtain ⟨key, v₀⟩ := p
      intro acc res hnd hok k
      simp only [List.map_cons, List.nodup_cons] at hnd
      obtain ⟨hkey, hndrest⟩ := hnd
      have hrestnone : lookupD rest key = none :=
        lookupD_eq_none_of_not_mem rest key hkey
      simp only [mergeToolGo] at hok
      -- a common continuation: the recursive call went through with
      -- accumulator `setD acc key w`; transfer its characterization
      have continue_with : ∀ w : Val,
          mergeToolGo rootT (setD acc key w) rest = .ok res →
          lookupD res key = some w ∧
          ∀ k, k ≠ key →
            ((lookupD rest k = none → lookupD res k = lookupD acc k) ∧
             (∀ v, lookupD rest k = some v →
               ((∀ rv, lookupD rootT k = some rv → rv.isList = true →
                   ∃ cur nv, lookupD acc k = some cur ∧ pyAdd cur v = .ok nv ∧
                     lookupD res k = some nv) ∧
                ((lookupD rootT k = none ∨
                    ∃ rv, lookupD rootT k = some rv ∧ rv.isList = false) →
                   lookupD res k = some v)))) := by
        intro w hok2
        have step := ih (setD acc key w) res hndrest hok2
        constructor
        · have := (step key).1 hrestnone
          rwa [lookupD_setD_self] at this
        · intro k hk
          have hne : key ≠ k := fun h => hk h.symm
          have hacc : lookupD (setD acc key w) k = lookupD acc k :=
            lookupD_setD_ne acc key k w hne
          refine ⟨fun hnone => by rw [(step k).1 hnone, hacc], ?_⟩
          intro v hv
          have h2 := (step k).2 v hv
          refine ⟨fun rv hrv hl => ?_, h2.2⟩
          obtain ⟨cur, nv, h1, hadd, h3⟩ := h2.1 rv hrv hl
          exact ⟨cur, nv, by rwa [hacc] at h1, hadd, h3⟩
      rcases hroot : lookupD rootT key with _ | rv
      · -- key not in root: override branch
        simp only [hroot] at hok
        obtain ⟨hreskey, hrest⟩ := continue_with v₀ hok
        by_cases hk : k = key
        · subst hk
          refine ⟨fun hnone => by simp [lookupD] at hnone, ?_⟩
          intro v hv
          simp [lookupD] at hv
          subst hv
          refine ⟨fun rv hrv _ => ?_, fun _ => hreskey⟩
          rw [hroot] at hrv; cases hrv
        · have hq := hrest k hk
          have hk' : key ≠ k := fun h => hk h.symm
          refine ⟨fun hnone => ?_, fun v hv => ?_⟩
          · rw [lookupD_cons, if_neg hk'] at hnone
            exact hq.1 hnone
          · rw [lookupD_cons, if_neg hk'] at hv
            exact hq.2 v hv
      · simp only [hroot] at hok
        by_cases hlist : rv.isList = true
        · rw [if_pos hlist] at hok
          rcases hacc0 : lookupD acc key with _ | cur
          · simp only [hacc0] at hok; cases hok
          · simp only [hacc0] at hok
            rcases hadd : pyAdd cur v₀ with e | nv
            · simp only [hadd] at hok; cases hok
            · simp only [hadd] at hok
              obtain ⟨hreskey, hrest⟩ := continue_with nv hok
              by_cases hk : k = key
              · subst hk
                refine ⟨fun hnone => by simp [lookupD] at hnone, ?_⟩
                intro v hv
                simp [lookupD] at hv
                subst hv
                refine ⟨fun rv' hrv' _ => ?_, fun hcon => ?_⟩
                · rw [hroot] at hrv'
                  cases hrv'
                  exact ⟨cur, nv, hacc0, hadd, hreskey⟩
                · rcases hcon with hcon | ⟨rv', hrv', hl'⟩
                  · rw [hroot] at hcon; cases hcon
                  · rw [hroot] at hrv'; cases hrv'
                    rw [hlist] at hl'; cases hl'
              · have hq := hrest k hk
                have hk' : key ≠ k := fun h => hk h.symm
                refine ⟨fun hnone => ?_, fun v hv => ?_⟩
                · rw [lookupD_cons, if_neg hk'] at hnone
                  exact hq.1 hnone
                · rw [lookupD_cons, if_neg hk'] at hv
                  exact hq.2 v hv
        · rw [if_neg hlist] at hok
          obtain ⟨hreskey, hrest⟩ := continue_with v₀ hok
          by_cases hk : k = key
          · subst hk
            refine ⟨fun hnone => by simp [lookupD] at hnone, ?_⟩
            intro v hv
            simp [lookupD] at hv
            subst hv
            refine ⟨fun rv' hrv' hl' => ?_, fun _ => hreskey⟩
            rw [hroot] at hrv'
            cases hrv'
            exact absurd hl' hlist
          · have hq := hrest k hk
            have hk' : key ≠ k := fun h => hk h.symm
            refine ⟨fun hnone => ?_, fun v hv => ?_⟩
            · rw [lookupD_cons, if_neg hk'] at hnone
              exact hq.1 hnone
            · rw [lookupD_cons, if_neg hk'] at hv
              exact hq.2 v hv

/-- What the outer loop does to each tool, relative to its accumulator:
unprocessed tools keep their accumulator value; a processed tool absent from
the root is overridden by the local tool dict; a processed tool present in
the root gets the inner loop's result, run on the accumulator's dict for
that tool. -/
theorem mergeGo_lookup (root : Dict (Dict Val)) :
    ∀ (entries : List (String × Dict Val)) (acc res : Dict (Dict Val)),
      (entries.map Prod.fst).Nodup →
      mergeGo root acc entries = .ok res →
      ∀ t,
        (lookupD entries t = none → lookupD res t = lookupD acc t) ∧
        (∀ lt, lookupD entries t = some lt →
          ((lookupD root t = none → lookupD res t = some lt) ∧
           (∀ rt, lookupD root t = some rt →
              ∃ curT newT, lookupD acc t = some curT ∧
                mergeToolGo rt curT lt = .ok newT ∧ lookupD res t = some newT))) := by
  intro entries
  induction entries with
  | nil =>
      intro acc res _ hok t
      simp only [mergeGo] at hok
      cases hok
      exact ⟨fun _ => rfl, fun lt hlt => by simp [lookupD] at hlt⟩
  | cons p rest ih =>
      obtain ⟨tool, localT⟩ := p
      intro acc res hnd hok t
      simp only [List.map_cons, List.nodup_cons] at hnd
      obtain ⟨htool, hndrest⟩ := hnd
      have hrestnone : lookupD rest tool = none :=
        lookupD_eq_none_of_not_mem rest tool htool
      simp only [mergeGo] at hok
      have continue_with : ∀ w : Dict Val,
          mergeGo root (setD acc tool w) rest = .ok res →
          lookupD res tool = some w ∧
          ∀ t, t ≠ tool →
            ((lookupD rest t = none → lookupD res t = lookupD acc t) ∧
             (∀ lt, lookupD rest t = some lt →
               ((lookupD root t = none → lookupD res t = some lt) ∧
                (∀ rt, lookupD root t = some rt →
                   ∃ curT newT, lookupD acc t = some curT ∧
                     mergeToolGo rt curT lt = .ok newT ∧
                     lookupD res t = some newT)))) := by
        intro w hok2
        have step := ih (setD acc tool w) res hndrest hok2
        constructor
        · have := (step tool).1 hrestnone
          rwa [lookupD_setD_self] at this
        · intro t ht
          have hne : tool ≠ t := fun h => ht h.symm
          have hacc : lookupD (setD acc tool w) t = lookupD acc t :=
            lookupD_setD_ne acc tool t w hne
          refine ⟨fun hnone => by rw [(step t).1 hnone, hacc], ?_⟩
          intro lt hlt
          have h2 := (step t).2 lt hlt
          refine ⟨h2.1, fun rt hrt => ?_⟩
          obtain ⟨curT, newT, h1, hmt, h3⟩ := h2.2 rt hrt
          exact ⟨curT, newT, by rwa [hacc] at h1, hmt, h3⟩
      rcases hroot : lookupD root tool with _ | rootT
      · simp only [hroot] at hok
        obtain ⟨hrestool, hrest⟩ := continue_with localT hok
        by_cases hk : t = tool
        · subst hk
          refine ⟨fun hnone => by simp [lookupD] at hnone, ?_⟩
          intro lt hlt
          simp [lookupD] at hlt
          subst hlt
          refine ⟨fun _ => hrestool, fun rt hrt => ?_⟩
          rw [hroot] at hrt; cases hrt
        · have hq := hrest t hk
          have hk' : tool ≠ t := fun h => hk h.symm
          refine ⟨fun hnone => ?_, fun lt hlt => ?_⟩
          · rw [lookupD_cons, if_neg hk'] at hnone
            exact hq.1 hnone
          · rw [lookupD_cons, if_neg hk'] at hlt
            exact hq.2 lt hlt
      · simp only [hroot] at hok
        rcases hacc0 : lookupD acc tool with _ | curT
        · simp only [hacc0] at hok; cases hok
        · simp only [hacc0] at hok
          rcases hmt : mergeToolGo rootT curT localT with e | newT
          · simp only [hmt] at hok; cases hok
          · simp only [hmt] at hok
            obtain ⟨hrestool, hrest⟩ := continue_with newT hok
            by_cases hk : t = tool
            · subst hk
              refine ⟨fun hnone => by simp [lookupD] at hnone, ?_⟩
              intro lt hlt
              simp [lookupD] at hlt
              subst hlt
              refine ⟨fun hcon => ?_, fun rt hrt => ?_⟩
              · rw [hroot] at hcon; cases hcon
              · rw [hroot] at hrt
                cases hrt
                exact ⟨curT, newT, hacc0, hmt, hrestool⟩
            · have hq := hrest t hk
              have hk' : tool ≠ t := fun h => hk h.symm
              refine ⟨fun hnone => ?_, fun lt hlt => ?_⟩
              · rw [lookupD_cons, if_neg hk'] at hnone
                exact hq.1 hnone
              · rw [lookupD_cons, if_neg hk'] at hlt
                exact hq.2 lt hlt

/-- When the merge succeeds, its result at every tool/key pair is exactly the
spec's merged value computed from the two inputs' lookups. (The key-uniqueness
hypotheses hold for every config obtained from a Python dict.) -/
theorem mergeCs50Yaml_spec_of_ok (cs50 root m : Dict (Dict Val))
    (h : mergeCs50Yaml cs50 root = .ok m)
    (h1 : (cs50.map Prod.fst).Nodup)
    (h3 : ∀ p ∈ cs50, ((p.2 : Dict Val).map Prod.fst).Nodup) :
    ∀ t k, lookup2 m t k = specMergeVal (lookup2 cs50 t k) (lookup2 root t k) := by
  have main := mergeGo_lookup root cs50 root m h1 h
  intro t k
  rcases hl : lookupD cs50 t with _ | lt
  · have hm := (main t).1 hl
    simp only [lookup2, hl, hm, Option.bind]
    rfl
  · have h2 := (main t).2 lt hl
    rcases hr : lookupD root t with _ | rt
    · have hm := h2.1 hr
      simp only [lookup2, hl, hr, hm, Option.bind]
      rcases hlk : lookupD lt k with _ | lv <;> rfl
    · obtain ⟨curT, newT, hcur, hmt, hm⟩ := h2.2 rt hr
      rw [hr] at hcur
      cases hcur
      have hltmem : (t, lt) ∈ cs50 := lookupD_mem hl
      have hltnd : (lt.map Prod.fst).Nodup := h3 (t, lt) hltmem
      have inner := mergeToolGo_lookup rt lt rt newT hltnd hmt
      simp only [lookup2, hl, hr, hm, Option.bind]
      rcases hlk : lookupD lt k with _ | lv
      · have := (inner k).1 hlk
        rw [this]
        rcases hrk : lookupD rt k with _ | rv <;> rfl
      · have h4 := (inner k).2 lv hlk
        rcases hrk : lookupD rt k with _ | rv
        · rw [h4.2 (Or.inl hrk)]
          rfl
        · by_cases hrl : rv.isList = true
          · obtain ⟨cur, nv, hc, hadd, hres⟩ := h4.1 rv hrk hrl
            rw [hrk] at hc
            cases hc
            cases rv with
            | vNat n => simp [Val.isList] at hrl
            | vStr s => simp [Val.isList] at hrl
            | vList xs =>
                cases lv with
                | vNat n => simp [pyAdd] at hadd
                | vStr s => simp [pyAdd] at hadd
                | vList ys =>
                    simp only [pyAdd] at hadd
                    cases hadd
                    rw [hres]
                    rfl
          · have hrl' : rv.isList = false := by
              cases hb : rv.isList
              · rfl
              · exact absurd hb hrl
            rw [h4.2 (Or.inr ⟨rv, hrk, hrl'⟩)]
            cases rv with
            | vNat n => rfl
            | vStr s => rfl
            | vList xs => simp [Val.isList] at hrl'

/-- When the merge succeeds, a tool is present in the result iff it is
present in at least one of the inputs. -/
theorem mergeCs50Yaml_keys_of_ok (cs50 root m : Dict (Dict Val))
    (h : mergeCs50Yaml cs50 root = .ok m)
    (h1 : (cs50.map Prod.fst).Nodup) :
    ∀ t, (lookupD m t).isSome = ((lookupD cs50 t).isSome || (lookupD root t).isSome) := by
  have main := mergeGo_lookup root cs50 root m h1 h
  intro t
  rcases hl : lookupD cs50 t with _ | lt
  · rw [(main t).1 hl]
    simp
  · have h2 := (main t).2 lt hl
    rcases hr : lookupD root t with _ | rt
    · rw [h2.1 hr]
      simp
    · obtain ⟨curT, newT, _, _, hm⟩ := h2.2 rt hr
      rw [hm]
      simp

/-! ## `_check_required` and `connect` -/

/-- The message listing the missing required files. -/
def missingFilesMsg (missing : List String) : String :=
  "You seem to be missing these files:" ++ "\n"
    ++ String.intercalate "\n" missing ++ "\n"
    ++ "Ensure you have the required files before submitting."

/-- Interpret a config value as a file name (`os.path.isfile` needs a path). -/
def valAsStr : Val → Option String
  | .vStr s => some s
  | _ => none

/-- `_check_required(tool_yaml)`: missing `required` key returns silently;
otherwise every listed file not present (per the `isFile` oracle standing for
`os.path.isfile`) is collected and reported in one `Error`. -/
def checkRequired (toolYaml : Dict Val) (isFile : String → Bool) : Except PyExc Unit :=
  match lookupD toolYaml "required" with
  | none => .ok ()
  | some (.vList reqs) =>
      match reqs.mapM valAsStr with
      | none => .error (.other 0)
      | some names =>
          let missing := names.filter (fun f => !isFile f)
          if missing.isEmpty then .ok ()
          else .error (.error (missingFilesMsg missing))
  | some _ => .error (.other 0)

/-- The body of `connect` from the point where the directory-local config has
been fetched and parsed (`localCfg`); `rootFetch` is the outcome of
`_get_content_from(..., ".cs50.yaml")` at the repository root combined with
parsing (`.error e` when the fetch raised `e`), and `isFile` stands for
`os.path.isfile`:

    if tool not in cs50_yaml: raise InvalidSlug(...)
    try: root_cs50_yaml_content = _get_content_from(...)
    except Error: pass
    else: cs50_yaml = _merge_cs50_yaml(cs50_yaml, root_cs50_yaml)
    _check_required(cs50_yaml[tool])
    return cs50_yaml[tool]
-/
def connectModel (tool : String) (localCfg : Dict (Dict Val))
    (rootFetch : Except PyExc (Dict (Dict Val))) (isFile : String → Bool) :
    Except PyExc (Dict Val) :=
  match lookupD localCfg tool with
  | none =>
      .error (.invalidSlug ("Invalid slug for " ++ tool ++ ", did you mean something else?"))
  | some _ =>
      match (match rootFetch with
        | .error e => if e.isPushError then Except.ok localCfg else .error e
        | .ok root =>
            match mergeCs50Yaml localCfg root with
            | .ok m => .ok m
            | .error _ => .error (.other 1)) with   -- TypeError from the merge propagates
      | .error e => .error e
      | .ok cfg =>
          match lookupD cfg tool with
          | none => .error (.other 2)        -- KeyError (unreachable: merge keeps local keys)
          | some toolCfg =>
              match checkRequired toolCfg isFile with
              | .ok _ => .ok toolCfg
              | .error e => .error e

/-! ## Heap-level embedding of `_merge_cs50_yaml`

Python dicts and lists are mutable heap objects; `_merge_cs50_yaml` deep-copies
the root config and then mutates only that copy. To state the non-mutation
claim, the merge is re-embedded against an explicit store of objects. -/

/-- A heap address. -/
abbrev Addr := Nat

/-- A Python value: an immutable atom (int, str) or a reference to a heap
object. -/
inductive HVal where
  | hNat (n : Nat)
  | hStr (s : String)
  | hRef (a : Addr)
deriving DecidableEq, Repr

/-- A heap object: a dict or a list. -/
inductive HObj where
  | hDict (entries : List (String × HVal))
  | hList (items : List HVal)
deriving DecidableEq, Repr

/-- The heap: object at address `a` is the `a`-th entry. -/
abbrev Store := List HObj

/-- Read the object at an address. -/
def readS (σ : Store) (a : Addr) : Option HObj := σ[a]?

/-- Overwrite the object at an (existing) address. -/
def writeS (σ : Store) (a : Addr) (o : HObj) : Store := σ.set a o

/-- Allocate a fresh object, returning its address. -/
def allocS (σ : Store) (o : HObj) : Store × Addr := (σ ++ [o], σ.length)

/-- The `memo` dict of `copy.deepcopy`: old address to copied address. -/
abbrev Memo := List (Addr × Addr)

/-- Lookup in the deepcopy memo. -/
def lookupMemo : Memo → Addr → Option Addr
  | [], _ => none
  | (x, y) :: rest, a => if x = a then some y else lookupMemo rest a

mutual

/-- `copy.deepcopy` on a value: atoms are returned unchanged, references are
copied object-by-object with already-copied addresses shared through the
memo. Cyclic object graphs exhaust the fuel and yield `none`. -/
def deepcopyV : Nat → Store → Memo → HVal → Option (Store × Memo × HVal)
  | _, σ, m, .hNat n => some (σ, m, .hNat n)
  | _, σ, m, .hStr s => some (σ, m, .hStr s)
  | 0, _, _, .hRef _ => none
  | fuel + 1, σ, m, .hRef a =>
      match lookupMemo m a with
      | some b => some (σ, m, .hRef b)
      | none =>
          match readS σ a with
          | none => none
          | some (.hList items) =>
              match deepcopyVs fuel σ m items with
              | none => none
              | some (σ₁, m₁, items') =>
                  let p := allocS σ₁ (.hList items')
                  some (p.1, (a, p.2) :: m₁, .hRef p.2)
          | some (.hDict entries) =>
              match deepcopyEs fuel σ m entries with
              | none => none
              | some (σ₁, m₁, entries') =>
                  let p := allocS σ₁ (.hDict entries')
                  some (p.1, (a, p.2) :: m₁, .hRef p.2)

/-- `deepcopy` of the items of a list, left to right. -/
def deepcopyVs : Nat → Store → Memo → List HVal → Option (Store × Memo × List HVal)
  | _, σ, m, [] => some (σ, m, [])
  | fuel, σ, m, v :: vs =>
      match deepcopyV fuel σ m v with
      | none => none
      | some (σ₁, m₁, v') =>
          match deepcopyVs fuel σ₁ m₁ vs with
          | none => none
          | some (σ₂, m₂, vs') => some (σ₂, m₂, v' :: vs')

/-- `deepcopy` of the entries of a dict, in insertion order (keys are
immutable strings and are kept). -/
def deepcopyEs : Nat → Store → Memo → List (String × HVal) →
    Option (Store × Memo × List (String × HVal))
  | _, σ, m, [] => some (σ, m, [])
  | fuel, σ, m, (k, v) :: es =>
      match deepcopyV fuel σ m v with
      | none => none
      | some (σ₁, m₁, v') =>
          match deepcopyEs fuel σ₁ m₁ es with
          | none => none
          | some (σ₂, m₂, es') => some (σ₂, m₂, (k, v') :: es')

end

/-- Read a dict object's entries at an address (`none`: not a dict). -/
def getDictH (σ : Store) (a : Addr) : Option (List (String × HVal)) :=
  match readS σ a with
  | some (.hDict es) => some es
  | _ => none

/-- The address behind a value used as a dict (`TypeError` on atoms). -/
def dictAddr : HVal → Option Addr
  | .hRef a => some a
  | _ => none

/-- Subscript read `obj_at_a[k]`. -/
def getItemH (σ : Store) (a : Addr) (k : String) : Option HVal :=
  (getDictH σ a).bind (fun es => lookupD es k)

/-- Subscript write `obj_at_a[k] = v` (mutates the dict object in place). -/
def setItemH (σ : Store) (a : Addr) (k : String) (v : HVal) : Option Store :=
  (getDictH σ a).map (fun es => writeS σ a (.hDict (setD es k v)))

/-- `isinstance(v, list)` against the heap. -/
def isListHp (σ : Store) (v : HVal) : Bool :=
  match v with
  | .hRef a =>
      match readS σ a with
      | some (.hList _) => true
      | _ => false
  | _ => false

/-- Python `+` against the heap: `list + list` allocates a fresh list object
(the source deliberately avoids `+=` for exactly this reason); atom addition
is pure; anything else is a `TypeError`. -/
def pyAddHp (σ : Store) (x y : HVal) : Option (Store × HVal) :=
  match x, y with
  | .hNat a, .hNat b => some (σ, .hNat (a + b))
  | .hStr a, .hStr b => some (σ, .hStr (a ++ b))
  | .hRef a, .hRef b =>
      match readS σ a, readS σ b with
      | some (.hList xs), some (.hList ys) =>
          let p := allocS σ (.hList (xs ++ ys))
          some (p.1, .hRef p.2)
      | _, _ => none
  | _, _ => none

/-- One iteration of the inner loop of `_merge_cs50_yaml` on the heap, for a
single `key`; every subscript re-reads the current heap, as the Python
expressions do. -/
def mergeHKey (σ : Store) (csA rootA resultA : Addr) (tool key : String) :
    Option Store := do
  -- `key in root_cs50[tool] and isinstance(root_cs50[tool][key], list)`
  let rootToolV ← getItemH σ rootA tool
  let rootToolA ← dictAddr rootToolV
  let rootToolD ← getDictH σ rootToolA
  let cond := match lookupD rootToolD key with
    | some rv => isListHp σ rv
    | none => false
  if cond then
    -- result[tool][key] = result[tool][key] + cs50[tool][key]
    let resToolV ← getItemH σ resultA tool
    let resToolA ← dictAddr resToolV
    let cur ← getItemH σ resToolA key
    let csToolV ← getItemH σ csA tool
    let csToolA ← dictAddr csToolV
    let lv ← getItemH σ csToolA key
    let (σ₁, nv) ← pyAddHp σ cur lv
    let resToolV2 ← getItemH σ₁ resultA tool
    let resToolA2 ← dictAddr resToolV2
    setItemH σ₁ resToolA2 key nv
  else
    -- result[tool][key] = cs50[tool][key]
    let csToolV ← getItemH σ csA tool
    let csToolA ← dictAddr csToolV
    let lv ← getItemH σ csToolA key
    let resToolV ← getItemH σ resultA tool
    let resToolA ← dictAddr resToolV
    setItemH σ resToolA key lv

/-- The inner loop over the keys of `cs50[tool]`. -/
def mergeHKeys (σ : Store) (csA rootA resultA : Addr) (tool : String) :
    List String → Option Store
  | [] => some σ
  | key :: rest => do
      let σ' ← mergeHKey σ csA rootA resultA tool key
      mergeHKeys σ' csA rootA resultA tool rest

/-- One iteration of the outer loop (`for tool in cs50`) on the heap. -/
def mergeHTool (σ : Store) (csA rootA resultA : Addr) (tool : String) :
    Option Store := do
  let rootD ← getDictH σ rootA
  if (lookupD rootD tool).isSome = false then do
    -- result[tool] = cs50[tool]; continue
    let lv ← getItemH σ csA tool
    setItemH σ resultA tool lv
  else do
    let csToolV ← getItemH σ csA tool
    let csToolA ← dictAddr csToolV
    let csToolD ← getDictH σ csToolA
    mergeHKeys σ csA rootA resultA tool (csToolD.map Prod.fst)

/-- The outer loop over the tools of `cs50`. -/
def mergeHTools (σ : Store) (csA rootA resultA : Addr) : List String → Option Store
  | [] => some σ
  | tool :: rest => do
      let σ' ← mergeHTool σ csA rootA resultA tool
      mergeHTools σ' csA rootA resultA rest

/-- `_merge_cs50_yaml` on the heap: `result = copy.deepcopy(root_cs50)`, then
the two nested loops mutating only `result`; returns the final heap and the
address of `result`. -/
def mergeH (fuel : Nat) (σ : Store) (csA rootA : Addr) : Option (Store × Addr) := do
  let (σ₁, _, rv) ← deepcopyV fuel σ [] (.hRef rootA)
  let resultA ← dictAddr rv
  let csD ← getDictH σ₁ csA
  let σ₂ ← mergeHTools σ₁ csA rootA resultA (csD.map Prod.fst)
  some (σ₂, resultA)

/-! ### Store lemmas -/

/-- `σ'` agrees with `σ` on every address below `n`. -/
def agreesBelow (n : Nat) (σ σ' : Store) : Prop :=
  ∀ a, a < n → readS σ' a = readS σ a

theorem readS_lt_of_some {σ : Store} {a : Addr} {o : HObj}
    (h : readS σ a = some o) : a < σ.length :=
  (List.getElem?_eq_some.mp h).1

theorem readS_of_ge {σ : Store} {a : Addr} (h : σ.length ≤ a) : readS σ a = none :=
  List.getElem?_eq_none h

theorem readS_append_lt {σ Δ : Store} {a : Addr} (h : a < σ.length) :
    readS (σ ++ Δ) a = readS σ a :=
  List.getElem?_append_left h

theorem readS_writeS_ne {σ : Store} {a b : Addr} {o : HObj} (h : a ≠ b) :
    readS (writeS σ b o) a = readS σ a :=
  List.getElem?_set_ne (fun he => h he.symm)

theorem readS_writeS_self {σ : Store} {a : Addr} {o : HObj} (h : a < σ.length) :
    readS (writeS σ a o) a = some o := by
  simp only [readS, writeS]
  exact List.getElem?_set_eq_of_lt o h

theorem readS_allocS (σ : Store) (o : HObj) :
    readS (σ ++ [o]) σ.length = some o :=
  List.getElem?_concat_length σ o

theorem length_writeS (σ : Store) (b : Addr) (o : HObj) :
    (writeS σ b o).length = σ.length :=
  List.length_set σ b o

theorem agreesBelow_refl (n : Nat) (σ : Store) : agreesBelow n σ σ :=
  fun _ _ => rfl

theorem agreesBelow_trans {n : Nat} {σ₁ σ₂ σ₃ : Store}
    (h1 : agreesBelow n σ₁ σ₂) (h2 : agreesBelow n σ₂ σ₃) :
    agreesBelow n σ₁ σ₃ :=
  fun a ha => (h2 a ha).trans (h1 a ha)

theorem agreesBelow_append {n : Nat} {σ Δ : Store} (h : n ≤ σ.length) :
    agreesBelow n σ (σ ++ Δ) :=
  fun a ha => readS_append_lt (Nat.lt_of_lt_of_le ha h)

theorem agreesBelow_writeS {n : Nat} {σ : Store} {b : Addr} {o : HObj}
    (h : n ≤ b) : agreesBelow n σ (writeS σ b o) :=
  fun a ha => readS_writeS_ne (Nat.ne_of_lt (Nat.lt_of_lt_of_le ha h))

theorem getDictH_of_readS_eq {σ σ' : Store} {a : Addr}
    (h : readS σ' a = readS σ a) : getDictH σ' a = getDictH σ a := by
  simp only [getDictH, h]

theorem getItemH_of_readS_eq {σ σ' : Store} {a : Addr} (k : String)
    (h : readS σ' a = readS σ a) : getItemH σ' a k = getItemH σ a k := by
  simp only [getItemH, getDictH_of_readS_eq h]

/-! ### The fresh-region invariant of `deepcopy` -/

/-- References inside `v` point into `[lo, hi)`; atoms are unconstrained. -/
def refIn (lo hi : Nat) : HVal → Prop
  | .hRef b => lo ≤ b ∧ b < hi
  | _ => True

/-- Every value held by the object `o` satisfies `refIn lo hi`. -/
def objRefsIn (lo hi : Nat) : HObj → Prop
  | .hList items => ∀ v ∈ items, refIn lo hi v
  | .hDict es => ∀ p ∈ es, refIn lo hi p.2

/-- Every object allocated at or above `n₀` holds references that point into
the fresh region and strictly below the object's own address (objects are
allocated bottom-up by `deepcopy` and only ever overwritten with values of
the same shape during the merge). Holds vacuously of the initial store with
`n₀ = σ.length`. -/
def freshRegion (n₀ : Nat) (σ : Store) : Prop :=
  ∀ a o, n₀ ≤ a → readS σ a = some o → objRefsIn n₀ a o

/-- The memo maps only to addresses of already-copied (fresh) objects. -/
def memoOK (n₀ : Nat) (σ : Store) (m : Memo) : Prop :=
  ∀ p ∈ m, n₀ ≤ p.2 ∧ p.2 < σ.length

theorem lookupMemo_mem {m : Memo} {a b : Addr} (h : lookupMemo m a = some b) :
    (a, b) ∈ m := by
  induction m with
  | nil => simp [lookupMemo] at h
  | cons p rest ih =>
      obtain ⟨x, y⟩ := p
      by_cases hx : x = a
      · subst hx
        simp [lookupMemo] at h
        simp [h]
      · simp [lookupMemo, hx] at h
        exact List.mem_cons_of_mem _ (ih h)

theorem refIn_mono {lo hi hi' : Nat} {v : HVal} (h : refIn lo hi v) (hh : hi ≤ hi') :
    refIn lo hi' v := by
  cases v with
  | hRef b => exact ⟨h.1, Nat.lt_of_lt_of_le h.2 hh⟩
  | hNat n => trivial
  | hStr s => trivial

mutual

/-- `deepcopy` of a value only allocates: the old store is untouched, the
fresh region stays well-formed, and the returned value (if a reference)
points into the fresh region. -/
theorem deepcopyV_ok (n₀ : Nat) :
    ∀ (fuel : Nat) (σ : Store) (m : Memo) (v : HVal) (σ' : Store) (m' : Memo) (v' : HVal),
      deepcopyV fuel σ m v = some (σ', m', v') →
      n₀ ≤ σ.length → freshRegion n₀ σ → memoOK n₀ σ m →
      σ.length ≤ σ'.length ∧ agreesBelow σ.length σ σ' ∧
        freshRegion n₀ σ' ∧ memoOK n₀ σ' m' ∧ refIn n₀ σ'.length v'
  | _, σ, m, .hNat n, σ', m', v', h, hn, hf, hm => by
      simp only [deepcopyV, Option.some.injEq, Prod.mk.injEq] at h
      obtain ⟨h1, h2, h3⟩ := h
      subst h1; subst h2; subst h3
      exact ⟨Nat.le_refl _, agreesBelow_refl _ _, hf, hm, trivial⟩
  | _, σ, m, .hStr s, σ', m', v', h, hn, hf, hm => by
      simp only [deepcopyV, Option.some.injEq, Prod.mk.injEq] at h
      obtain ⟨h1, h2, h3⟩ := h
      subst h1; subst h2; subst h3
      exact ⟨Nat.le_refl _, agreesBelow_refl _ _, hf, hm, trivial⟩
  | 0, σ, m, .hRef a, σ', m', v', h, hn, hf, hm => by
      simp only [deepcopyV] at h
      exact Option.noConfusion h
  | fuel + 1, σ, m, .hRef a, σ', m', v', h, hn, hf, hm => by
      rcases hmemo : lookupMemo m a with _ | b
      · rcases hread : readS σ a with _ | o
        · simp only [deepcopyV, hmemo, hread] at h
          exact Option.noConfusion h
        · cases o with
          | hList items =>
              rcases hcs : deepcopyVs fuel σ m items with _ | r
              · simp only [deepcopyV, hmemo, hread, hcs] at h
                exact Option.noConfusion h
              · obtain ⟨σ₁, m₁, items'⟩ := r
                simp only [deepcopyV, hmemo, hread, hcs, allocS,
                  Option.some.injEq, Prod.mk.injEq] at h
                obtain ⟨h1, h2, h3⟩ := h
                subst h1; subst h2; subst h3
                obtain ⟨hle, hag, hfr, hmo, hvals⟩ :=
                  deepcopyVs_ok n₀ fuel σ m items σ₁ m₁ items' hcs hn hf hm
                refine ⟨?_, ?_, ?_, ?_, ?_⟩
                · simp only [List.length_append, List.length_cons, List.length_nil]
                  omega
                · exact agreesBelow_trans hag (agreesBelow_append hle)
                · intro x o hx hro
                  rcases Nat.lt_trichotomy x σ₁.length with hlt | heq | hgt
                  · rw [readS_append_lt hlt] at hro
                    exact hfr x o hx hro
                  · subst heq
                    rw [readS_allocS] at hro
                    cases hro
                    intro v hv
                    exact hvals v hv
                  · have hge : (σ₁ ++ [HObj.hList items']).length ≤ x := by
                      simp only [List.length_append, List.length_cons, List.length_nil]
                      omega
                    rw [readS_of_ge hge] at hro
                    cases hro
                · intro p hp
                  rcases List.mem_cons.mp hp with hp | hp
                  · subst hp
                    refine ⟨Nat.le_trans hn hle, ?_⟩
                    simp
                  · obtain ⟨hb1, hb2⟩ := hmo p hp
                    refine ⟨hb1, Nat.lt_of_lt_of_le hb2 ?_⟩
                    simp only [List.length_append, List.length_cons, List.length_nil]
                    omega
                · refine ⟨Nat.le_trans hn hle, ?_⟩
                  simp
          | hDict entries =>
              rcases hcs : deepcopyEs fuel σ m entries with _ | r
              · simp only [deepcopyV, hmemo, hread, hcs] at h
                exact Option.noConfusion h
              · obtain ⟨σ₁, m₁, entries'⟩ := r
                simp only [deepcopyV, hmemo, hread, hcs, allocS,
                  Option.some.injEq, Prod.mk.injEq] at h
                obtain ⟨h1, h2, h3⟩ := h
                subst h1; subst h2; subst h3
                obtain ⟨hle, hag, hfr, hmo, hvals⟩ :=
                  deepcopyEs_ok n₀ fuel σ m entries σ₁ m₁ entries' hcs hn hf hm
                refine ⟨?_, ?_, ?_, ?_, ?_⟩
                · simp only [List.length_append, List.length_cons, List.length_nil]
                  omega
                · exact agreesBelow_trans hag (agreesBelow_append hle)
                · intro x o hx hro
                  rcases Nat.lt_trichotomy x σ₁.length with hlt | heq | hgt
                  · rw [readS_append_lt hlt] at hro
                    exact hfr x o hx hro
                  · subst heq
                    rw [readS_allocS] at hro
                    cases hro
                    intro p hp
                    exact hvals p hp
                  · have hge : (σ₁ ++ [HObj.hDict entries']).length ≤ x := by
                      simp only [List.length_append, List.length_cons, List.length_nil]
                      omega
                    rw [readS_of_ge hge] at hro
                    cases hro
                · intro p hp
                  rcases List.mem_cons.mp hp with hp | hp
                  · subst hp
                    refine ⟨Nat.le_trans hn hle, ?_⟩
                    simp
                  · obtain ⟨hb1, hb2⟩ := hmo p hp
                    refine ⟨hb1, Nat.lt_of_lt_of_le hb2 ?_⟩
                    simp only [List.length_append, List.length_cons, List.length_nil]
                    omega
                · refine ⟨Nat.le_trans hn hle, ?_⟩
                  simp
      · simp only [deepcopyV, hmemo, Option.some.injEq, Prod.mk.injEq] at h
        obtain ⟨h1, h2, h3⟩ := h
        subst h1; subst h2; subst h3
        have := hm _ (lookupMemo_mem hmemo)
        exact ⟨Nat.le_refl _, agreesBelow_refl _ _, hf, hm, this⟩

/-- `deepcopy` of a list of values: same frame facts, and every copied value
points into the fresh region. -/
theorem deepcopyVs_ok (n₀ : Nat) :
    ∀ (fuel : Nat) (σ : Store) (m : Memo) (vs : List HVal) (σ' : Store) (m' : Memo)
      (vs' : List HVal),
      deepcopyVs fuel σ m vs = some (σ', m', vs') →
      n₀ ≤ σ.length → freshRegion n₀ σ → memoOK n₀ σ m →
      σ.length ≤ σ'.length ∧ agreesBelow σ.length σ σ' ∧
        freshRegion n₀ σ' ∧ memoOK n₀ σ' m' ∧ ∀ v ∈ vs', refIn n₀ σ'.length v
  | _, σ, m, [], σ', m', vs', h, hn, hf, hm => by
      simp only [deepcopyVs, Option.some.injEq, Prod.mk.injEq] at h
      obtain ⟨h1, h2, h3⟩ := h
      subst h1; subst h2; subst h3
      exact ⟨Nat.le_refl _, agreesBelow_refl _ _, hf, hm, by simp⟩
  | fuel, σ, m, v :: vs, σ', m', vs', h, hn, hf, hm => by
      rcases h1 : deepcopyV fuel σ m v with _ | r1
      · simp only [deepcopyVs, h1] at h
        exact Option.noConfusion h
      · obtain ⟨σ₁, m₁, v₁⟩ := r1
        rcases h2 : deepcopyVs fuel σ₁ m₁ vs with _ | r2
        · simp only [deepcopyVs, h1, h2] at h
          exact Option.noConfusion h
        · obtain ⟨σ₂, m₂, vs₂⟩ := r2
          simp only [deepcopyVs, h1, h2, Option.some.injEq, Prod.mk.injEq] at h
          obtain ⟨ha, hb, hc⟩ := h
          subst ha; subst hb; subst hc
          obtain ⟨le1, ag1, fr1, mo1, ri1⟩ := deepcopyV_ok n₀ fuel σ m v σ₁ m₁ v₁ h1 hn hf hm
          obtain ⟨le2, ag2, fr2, mo2, ri2⟩ :=
            deepcopyVs_ok n₀ fuel σ₁ m₁ vs σ₂ m₂ vs₂ h2 (Nat.le_trans hn le1) fr1 mo1
          refine ⟨Nat.le_trans le1 le2, ?_, fr2, mo2, ?_⟩
          · exact agreesBelow_trans ag1 (fun a ha => ag2 a (Nat.lt_of_lt_of_le ha le1))
          · intro w hw
            rcases List.mem_cons.mp hw with hw | hw
            · subst hw
              exact refIn_mono ri1 le2
            · exact ri2 w hw

/-- `deepcopy` of dict entries: same frame facts, and every copied entry value
points into the fresh region. -/
theorem deepcopyEs_ok (n₀ : Nat) :
    ∀ (fuel : Nat) (σ : Store) (m : Memo) (es : List (String × HVal)) (σ' : Store)
      (m' : Memo) (es' : List (String × HVal)),
      deepcopyEs fuel σ m es = some (σ', m', es') →
      n₀ ≤ σ.length → freshRegion n₀ σ → memoOK n₀ σ m →
      σ.length ≤ σ'.length ∧ agreesBelow σ.length σ σ' ∧
        freshRegion n₀ σ' ∧ memoOK n₀ σ' m' ∧ ∀ p ∈ es', refIn n₀ σ'.length p.2
  | _, σ, m, [], σ', m', es', h, hn, hf, hm => by
      simp only [deepcopyEs, Option.some.injEq, Prod.mk.injEq] at h
      obtain ⟨h1, h2, h3⟩ := h
      subst h1; subst h2; subst h3
      exact ⟨Nat.le_refl _, agreesBelow_refl _ _, hf, hm, by simp⟩
  | fuel, σ, m, (k, v) :: es, σ', m', es', h, hn, hf, hm => by
      rcases h1 : deepcopyV fuel σ m v with _ | r1
      · simp only [deepcopyEs, h1] at h
        exact Option.noConfusion h
      · obtain ⟨σ₁, m₁, v₁⟩ := r1
        rcases h2 : deepcopyEs fuel σ₁ m₁ es with _ | r2
        · simp only [deepcopyEs, h1, h2] at h
          exact Option.noConfusion h
        · obtain ⟨σ₂, m₂, es₂⟩ := r2
          simp only [deepcopyEs, h1, h2, Option.some.injEq, Prod.mk.injEq] at h
          obtain ⟨ha, hb, hc⟩ := h
          subst ha; subst hb; subst hc
          obtain ⟨le1, ag1, fr1, mo1, ri1⟩ := deepcopyV_ok n₀ fuel σ m v σ₁ m₁ v₁ h1 hn hf hm
          obtain ⟨le2, ag2, fr2, mo2, ri2⟩ :=
            deepcopyEs_ok n₀ fuel σ₁ m₁ es σ₂ m₂ es₂ h2 (Nat.le_trans hn le1) fr1 mo1
          refine ⟨Nat.le_trans le1 le2, ?_, fr2, mo2, ?_⟩
          · exact agreesBelow_trans ag1 (fun a ha => ag2 a (Nat.lt_of_lt_of_le ha le1))
          · intro p hp
            rcases List.mem_cons.mp hp with hp | hp
            · subst hp
              exact refIn_mono ri1 le2
            · exact ri2 p hp

end

/-! ### The merge-loop invariant

The two merge loops write only (a) into the top-level `result` dict, and (b)
into the tool dicts reachable from `result`'s entries at tools that are also
in the root config — all of which are fresh copies. `TopOK` records fact (b):
whenever `result[tool]` is consulted for a tool present in the root config,
it is a reference to a fresh address distinct from `result` itself. -/

/-- `result`'s entry at every tool present in the root config is an atom or a
reference into the fresh region, distinct from `result`'s own address. -/
def TopOK (σ₀ : Store) (rootA resultA : Addr) (σ : Store) : Prop :=
  ∀ es rootD, getDictH σ resultA = some es → getDictH σ₀ rootA = some rootD →
    ∀ t v, (lookupD rootD t).isSome = true → lookupD es t = some v →
      ∀ b, v = HVal.hRef b → σ₀.length ≤ b ∧ b ≠ resultA

/-- Invariant carried through the merge loops, relative to the store `σ₀` as
it was before the merge started. -/
def MInv (σ₀ : Store) (rootA resultA : Addr) (σ : Store) : Prop :=
  agreesBelow σ₀.length σ₀ σ ∧ σ₀.length ≤ σ.length ∧
    σ₀.length ≤ resultA ∧ resultA < σ.length ∧ TopOK σ₀ rootA resultA σ

theorem TopOK_of_same_top {σ₀ σ σ' : Store} {rootA resultA : Addr}
    (h : getDictH σ' resultA = getDictH σ resultA)
    (ht : TopOK σ₀ rootA resultA σ) : TopOK σ₀ rootA resultA σ' :=
  fun es rootD hes hroot => ht es rootD (h ▸ hes) hroot

/-- `pyAddHp` at most allocates: the existing store is untouched. -/
theorem pyAddHp_frame {σ σ₁ : Store} {x y nv : HVal}
    (h : pyAddHp σ x y = some (σ₁, nv)) :
    σ.length ≤ σ₁.length ∧ ∀ a, a < σ.length → readS σ₁ a = readS σ a := by
  cases x with
  | hNat n =>
      cases y with
      | hNat m =>
          simp only [pyAddHp, Option.some.injEq, Prod.mk.injEq] at h
          obtain ⟨h1, _⟩ := h
          subst h1
          exact ⟨Nat.le_refl _, fun a _ => rfl⟩
      | hStr s => exact Option.noConfusion (by simpa only [pyAddHp] using h)
      | hRef b => exact Option.noConfusion (by simpa only [pyAddHp] using h)
  | hStr s =>
      cases y with
      | hNat m => exact Option.noConfusion (by simpa only [pyAddHp] using h)
      | hStr t =>
          simp only [pyAddHp, Option.some.injEq, Prod.mk.injEq] at h
          obtain ⟨h1, _⟩ := h
          subst h1
          exact ⟨Nat.le_refl _, fun a _ => rfl⟩
      | hRef b => exact Option.noConfusion (by simpa only [pyAddHp] using h)
  | hRef a =>
      cases y with
      | hNat m => exact Option.noConfusion (by simpa only [pyAddHp] using h)
      | hStr t => exact Option.noConfusion (by simpa only [pyAddHp] using h)
      | hRef b =>
          rcases hra : readS σ a with _ | oa
          · exact Option.noConfusion (by simpa only [pyAddHp, hra] using h)
          · rcases hrb : readS σ b with _ | ob
            · simp only [pyAddHp, hra, hrb] at h
              cases oa <;> exact Option.noConfusion h
            · cases oa with
              | hDict es => exact Option.noConfusion (by simpa only [pyAddHp, hra, hrb] using h)
              | hList xs =>
                  cases ob with
                  | hDict es => exact Option.noConfusion (by simpa only [pyAddHp, hra, hrb] using h)
                  | hList ys =>
                      simp only [pyAddHp, hra, hrb, allocS, Option.some.injEq,
                        Prod.mk.injEq] at h
                      obtain ⟨h1, _⟩ := h
                      subst h1
                      refine ⟨by simp, fun c hc => readS_append_lt hc⟩

/-- One inner-loop iteration preserves the invariant. -/
theorem mergeHKey_inv {σ₀ : Store} {csA rootA resultA : Addr}
    (hrootA : rootA < σ₀.length) {tool key : String} {σ σ' : Store}
    (hI : MInv σ₀ rootA resultA σ)
    (h : mergeHKey σ csA rootA resultA tool key = some σ') :
    MInv σ₀ rootA resultA σ' := by
  obtain ⟨hag, hlen, hres1, hres2, htop⟩ := hI
  have hrootread : readS σ rootA = readS σ₀ rootA := hag rootA hrootA
  simp only [mergeHKey, Option.bind_eq_bind] at h
  rcases h1 : getItemH σ rootA tool with _ | rootToolV
  · rw [h1, Option.none_bind] at h
    exact Option.noConfusion h
  rw [h1, Option.some_bind] at h
  rcases h2 : dictAddr rootToolV with _ | rootToolA
  · rw [h2, Option.none_bind] at h
    exact Option.noConfusion h
  rw [h2, Option.some_bind] at h
  rcases h3 : getDictH σ rootToolA with _ | rootToolD
  · rw [h3, Option.none_bind] at h
    exact Option.noConfusion h
  rw [h3, Option.some_bind] at h
  -- facts used by both branches: the root dict and `tool ∈ root`
  have hrootdict : ∃ rootD, getDictH σ₀ rootA = some rootD ∧
      lookupD rootD tool = some rootToolV := by
    rcases hge : getDictH σ rootA with _ | rootD
    · simp only [getItemH, hge, Option.bind] at h1
      exact Option.noConfusion h1
    · refine ⟨rootD, ?_, ?_⟩
      · rw [← getDictH_of_readS_eq hrootread]
        exact hge
      · simp only [getItemH, hge, Option.bind] at h1
        exact h1
  obtain ⟨rootD, hrootD, hrootTool⟩ := hrootdict
  -- the write target: `result[tool]` is a fresh address distinct from `result`
  have target_ok : ∀ resToolV resToolA, getItemH σ resultA tool = some resToolV →
      dictAddr resToolV = some resToolA →
      σ₀.length ≤ resToolA ∧ resToolA ≠ resultA := by
    intro resToolV resToolA hv hA
    rcases hge : getDictH σ resultA with _ | es
    · simp only [getItemH, hge, Option.bind] at hv
      exact Option.noConfusion hv
    · simp only [getItemH, hge, Option.bind] at hv
      cases resToolV with
      | hNat n => exact Option.noConfusion hA
      | hStr s => exact Option.noConfusion hA
      | hRef b =>
          simp only [dictAddr, Option.some.injEq] at hA
          subst hA
          exact htop es rootD hge hrootD tool (HVal.hRef b)
            (by simp [hrootTool]) hv b rfl
  -- common closing step: a write at a fresh, non-result address
  have finish_write : ∀ (σ₁ : Store) (resToolA : Addr) (k : String) (nv : HVal),
      σ.length ≤ σ₁.length → (∀ a, a < σ.length → readS σ₁ a = readS σ a) →
      σ₀.length ≤ resToolA → resToolA ≠ resultA →
      setItemH σ₁ resToolA k nv = some σ' → MInv σ₀ rootA resultA σ' := by
    intro σ₁ resToolA k nv hl1 hag1 hta htne hset
    rcases hgd : getDictH σ₁ resToolA with _ | es₂
    · simp only [setItemH, hgd, Option.map] at hset
      exact Option.noConfusion hset
    · simp only [setItemH, hgd, Option.map, Option.some.injEq] at hset
      subst hset
      have hresread : readS (writeS σ₁ resToolA (HObj.hDict (setD es₂ k nv))) resultA
          = readS σ resultA := by
        rw [readS_writeS_ne (fun he => htne he.symm)]
        exact hag1 resultA hres2
      refine ⟨?_, ?_, hres1, ?_, ?_⟩
      · intro a ha
        rw [readS_writeS_ne (Nat.ne_of_lt (Nat.lt_of_lt_of_le ha hta))]
        rw [hag1 a (Nat.lt_of_lt_of_le ha hlen)]
        exact hag a ha
      · rw [length_writeS]
        exact Nat.le_trans hlen hl1
      · rw [length_writeS]
        exact Nat.lt_of_lt_of_le hres2 hl1
      · exact TopOK_of_same_top (getDictH_of_readS_eq hresread) htop
  rcases hcond : (match lookupD rootToolD key with
      | some rv => isListHp σ rv
      | none => false) with _ | _
  · rw [hcond, if_neg (by simp)] at h
    rcases h4 : getItemH σ csA tool with _ | csToolV
    · rw [h4, Option.none_bind] at h
      exact Option.noConfusion h
    rw [h4, Option.some_bind] at h
    rcases h5 : dictAddr csToolV with _ | csToolA
    · rw [h5, Option.none_bind] at h
      exact Option.noConfusion h
    rw [h5, Option.some_bind] at h
    rcases h6 : getItemH σ csToolA key with _ | lv
    · rw [h6, Option.none_bind] at h
      exact Option.noConfusion h
    rw [h6, Option.some_bind] at h
    rcases h7 : getItemH σ resultA tool with _ | resToolV
    · rw [h7, Option.none_bind] at h
      exact Option.noConfusion h
    rw [h7, Option.some_bind] at h
    rcases h8 : dictAddr resToolV with _ | resToolA
    · rw [h8, Option.none_bind] at h
      exact Option.noConfusion h
    rw [h8, Option.some_bind] at h
    obtain ⟨hta, htne⟩ := target_ok resToolV resToolA h7 h8
    exact finish_write σ resToolA key lv (Nat.le_refl _) (fun a _ => rfl) hta htne h
  · rw [hcond, if_pos rfl] at h
    rcases h4 : getItemH σ resultA tool with _ | resToolV
    · rw [h4, Option.none_bind] at h
      exact Option.noConfusion h
    rw [h4, Option.some_bind] at h
    rcases h5 : dictAddr resToolV with _ | resToolA
    · rw [h5, Option.none_bind] at h
      exact Option.noConfusion h
    rw [h5, Option.some_bind] at h
    rcases h6 : getItemH σ resToolA key with _ | cur
    · rw [h6, Option.none_bind] at h
      exact Option.noConfusion h
    rw [h6, Option.some_bind] at h
    rcases h7 : getItemH σ csA tool with _ | csToolV
    · rw [h7, Option.none_bind] at h
      exact Option.noConfusion h
    rw [h7, Option.some_bind] at h
    rcases h8 : dictAddr csToolV with _ | csToolA
    · rw [h8, Option.none_bind] at h
      exact Option.noConfusion h
    rw [h8, Option.some_bind] at h
    rcases h9 : getItemH σ csToolA key with _ | lv
    · rw [h9, Option.none_bind] at h
      exact Option.noConfusion h
    rw [h9, Option.some_bind] at h
    rcases h10 : pyAddHp σ cur lv with _ | p
    · rw [h10, Option.none_bind] at h
      exact Option.noConfusion h
    rw [h10, Option.some_bind] at h
    obtain ⟨σ₁, nv⟩ := p
    obtain ⟨hl1, hag1⟩ := pyAddHp_frame h10
    have hresread1 : readS σ₁ resultA = readS σ resultA := hag1 resultA hres2
    rcases h11 : getItemH σ₁ resultA tool with _ | resToolV2
    · rw [h11, Option.none_bind] at h
      exact Option.noConfusion h
    rw [h11, Option.some_bind] at h
    rcases h12 : dictAddr resToolV2 with _ | resToolA2
    · rw [h12, Option.none_bind] at h
      exact Option.noConfusion h
    rw [h12, Option.some_bind] at h
    have h11' : getItemH σ resultA tool = some resToolV2 := by
      rw [← getItemH_of_readS_eq tool hresread1]
      exact h11
    obtain ⟨hta, htne⟩ := target_ok resToolV2 resToolA2 h11' h12
    exact finish_write σ₁ resToolA2 key nv hl1 hag1 hta htne h

/-- The inner loop preserves the invariant. -/
theorem mergeHKeys_inv {σ₀ : Store} {csA rootA resultA : Addr}
    (hrootA : rootA < σ₀.length) {tool : String} :
    ∀ (keys : List String) {σ σ' : Store},
      MInv σ₀ rootA resultA σ →
      mergeHKeys σ csA rootA resultA tool keys = some σ' →
      MInv σ₀ rootA resultA σ'
  | [], σ, σ', hI, h => by
      simp only [mergeHKeys, Option.some.injEq] at h
      subst h
      exact hI
  | key :: rest, σ, σ', hI, h => by
      simp only [mergeHKeys, Option.bind_eq_bind] at h
      rcases h1 : mergeHKey σ csA rootA resultA tool key with _ | σ₁
      · rw [h1, Option.none_bind] at h
        exact Option.noConfusion h
      · rw [h1, Option.some_bind] at h
        exact mergeHKeys_inv hrootA rest (mergeHKey_inv hrootA hI h1) h

/-- One outer-loop iteration preserves the invariant. -/
theorem mergeHTool_inv {σ₀ : Store} {csA rootA resultA : Addr}
    (hrootA : rootA < σ₀.length) {tool : String} {σ σ' : Store}
    (hI : MInv σ₀ rootA resultA σ)
    (h : mergeHTool σ csA rootA resultA tool = some σ') :
    MInv σ₀ rootA resultA σ' := by
  obtain ⟨hag, hlen, hres1, hres2, htop⟩ := hI
  have hrootread : readS σ rootA = readS σ₀ rootA := hag rootA hrootA
  simp only [mergeHTool, Option.bind_eq_bind] at h
  rcases h1 : getDictH σ rootA with _ | rootD
  · rw [h1, Option.none_bind] at h
    exact Option.noConfusion h
  rw [h1, Option.some_bind] at h
  have h1' : getDictH σ₀ rootA = some rootD := by
    rw [← getDictH_of_readS_eq hrootread]
    exact h1
  rcases hmem : (lookupD rootD tool).isSome with _ | _
  · -- tool not in root: result[tool] = cs50[tool]
    rw [hmem, if_pos rfl] at h
    rcases h2 : getItemH σ csA tool with _ | lv
    · rw [h2, Option.none_bind] at h
      exact Option.noConfusion h
    rw [h2, Option.some_bind] at h
    rcases hgd : getDictH σ resultA with _ | es
    · simp only [setItemH, hgd, Option.map] at h
      exact Option.noConfusion h
    · simp only [setItemH, hgd, Option.map, Option.some.injEq] at h
      subst h
      refine ⟨?_, ?_, hres1, ?_, ?_⟩
      · intro a ha
        rw [readS_writeS_ne (Nat.ne_of_lt (Nat.lt_of_lt_of_le ha hres1))]
        exact hag a ha
      · rw [length_writeS]
        exact hlen
      · rw [length_writeS]
        exact hres2
      · intro es' rootD' hes' hroot' t v htv hev b hb
        rw [h1'] at hroot'
        cases hroot'
        have hesr : readS (writeS σ resultA (HObj.hDict (setD es tool lv))) resultA
            = some (HObj.hDict (setD es tool lv)) := readS_writeS_self hres2
        have : es' = setD es tool lv := by
          simp only [getDictH, hesr, Option.some.injEq] at hes'
          exact hes'.symm
        subst this
        have htne : tool ≠ t := by
          intro he
          subst he
          rw [htv] at hmem
          exact Bool.noConfusion hmem
        rw [lookupD_setD_ne es tool t lv htne] at hev
        exact htop es rootD hgd h1' t v htv hev b hb
  · rw [hmem, if_neg (by simp)] at h
    rcases h2 : getItemH σ csA tool with _ | csToolV
    · rw [h2, Option.none_bind] at h
      exact Option.noConfusion h
    rw [h2, Option.some_bind] at h
    rcases h3 : dictAddr csToolV with _ | csToolA
    · rw [h3, Option.none_bind] at h
      exact Option.noConfusion h
    rw [h3, Option.some_bind] at h
    rcases h4 : getDictH σ csToolA with _ | csToolD
    · rw [h4, Option.none_bind] at h
      exact Option.noConfusion h
    rw [h4, Option.some_bind] at h
    exact mergeHKeys_inv hrootA (csToolD.map Prod.fst)
      ⟨hag, hlen, hres1, hres2, htop⟩ h

/-- The outer loop preserves the invariant. -/
theorem mergeHTools_inv {σ₀ : Store} {csA rootA resultA : Addr}
    (hrootA : rootA < σ₀.length) :
    ∀ (tools : List String) {σ σ' : Store},
      MInv σ₀ rootA resultA σ →
      mergeHTools σ csA rootA resultA tools = some σ' →
      MInv σ₀ rootA resultA σ'
  | [], σ, σ', hI, h => by
      simp only [mergeHTools, Option.some.injEq] at h
      subst h
      exact hI
  | tool :: rest, σ, σ', hI, h => by
      simp only [mergeHTools, Option.bind_eq_bind] at h
      rcases h1 : mergeHTool σ csA rootA resultA tool with _ | σ₁
      · rw [h1, Option.none_bind] at h
        exact Option.noConfusion h
      · rw [h1, Option.some_bind] at h
        exact mergeHTools_inv hrootA rest (mergeHTool_inv hrootA hI h1) h

/-- A successful `deepcopy` of a reference with an empty memo implies the
address was live in the store. -/
theorem deepcopyV_ref_lt {fuel : Nat} {σ : Store} {a : Addr}
    {r : Store × Memo × HVal} (h : deepcopyV fuel σ [] (.hRef a) = some r) :
    a < σ.length := by
  cases fuel with
  | zero =>
      simp only [deepcopyV] at h
      exact Option.noConfusion h
  | succ fuel =>
      rcases hr : readS σ a with _ | o
      · simp only [deepcopyV, lookupMemo, hr] at h
        exact Option.noConfusion h
      · exact readS_lt_of_some hr

/-- C7: the heap-level merge leaves both of its inputs unchanged — every
object that existed in the store before the merge (in particular both configs
and everything they reach) reads back identically afterwards: the root config
is deep-copied before any mutation and the local config is only read. -/
theorem mergeH_frame (fuel : Nat) (σ : Store) (csA rootA : Addr)
    (σ' : Store) (resA : Addr) (h : mergeH fuel σ csA rootA = some (σ', resA)) :
    ∀ a, a < σ.length → readS σ' a = readS σ a := by
  simp only [mergeH, Option.bind_eq_bind] at h
  rcases h1 : deepcopyV fuel σ [] (.hRef rootA) with _ | r
  · rw [h1, Option.none_bind] at h
    exact Option.noConfusion h
  rw [h1, Option.some_bind] at h
  obtain ⟨σ₁, m₁, rv⟩ := r
  rcases h2 : dictAddr rv with _ | resultA
  · rw [h2, Option.none_bind] at h
    exact Option.noConfusion h
  rw [h2, Option.some_bind] at h
  rcases h3 : getDictH σ₁ csA with _ | csD
  · rw [h3, Option.none_bind] at h
    exact Option.noConfusion h
  rw [h3, Option.some_bind] at h
  rcases h4 : mergeHTools σ₁ csA rootA resultA (csD.map Prod.fst) with _ | σ₂
  · rw [h4, Option.none_bind] at h
    exact Option.noConfusion h
  rw [h4, Option.some_bind] at h
  simp only [Option.some.injEq, Prod.mk.injEq] at h
  obtain ⟨h5, _⟩ := h
  subst h5
  have hrootA : rootA < σ.length := deepcopyV_ref_lt h1
  have hfresh0 : freshRegion σ.length σ := by
    intro a o hao hro
    rw [readS_of_ge hao] at hro
    exact Option.noConfusion hro
  have hmemo0 : memoOK σ.length σ [] := by
    intro p hp
    simp at hp
  obtain ⟨hle, hag, hfr, _, hri⟩ :=
    deepcopyV_ok σ.length fuel σ [] (.hRef rootA) σ₁ m₁ rv h1 (Nat.le_refl _) hfresh0 hmemo0
  have hrv : rv = HVal.hRef resultA := by
    cases rv with
    | hNat n => exact Option.noConfusion h2
    | hStr s => exact Option.noConfusion h2
    | hRef b =>
        simp only [dictAddr, Option.some.injEq] at h2
        rw [h2]
  subst hrv
  obtain ⟨hres1, hres2⟩ := hri
  have htop : TopOK σ rootA resultA σ₁ := by
    intro es rootD hes _ t v _ hev b hb
    subst hb
    have hread : readS σ₁ resultA = some (HObj.hDict es) := by
      rcases hr : readS σ₁ resultA with _ | o
      · simp only [getDictH, hr] at hes
        exact Option.noConfusion hes
      · cases o with
        | hList items =>
            simp only [getDictH, hr] at hes
            exact Option.noConfusion hes
        | hDict es2 =>
            simp only [getDictH, hr, Option.some.injEq] at hes
            subst hes
            rfl
    have := hfr resultA (HObj.hDict es) hres1 hread
    have hmem : (t, HVal.hRef b) ∈ es := lookupD_mem hev
    have hq := this (t, HVal.hRef b) hmem
    exact ⟨hq.1, Nat.ne_of_lt hq.2⟩
  have hI : MInv σ rootA resultA σ₁ := ⟨hag, hle, hres1, hres2, htop⟩
  obtain ⟨hag', _, _, _, _⟩ := mergeHTools_inv hrootA (csD.map Prod.fst) hI h4
  exact hag'

/-! ### Lemmas about `strip` -/

theorem head?_dropWhile_ne (p : Char → Bool) :
    ∀ (l : List Char) (c : Char), (l.dropWhile p).head? = some c → p c = false
  | [], c, h => by simp [List.dropWhile] at h
  | x :: xs, c, h => by
      by_cases hp : p x = true
      · rw [List.dropWhile_cons_of_pos hp] at h
        exact head?_dropWhile_ne p xs c h
      · rw [List.dropWhile_cons_of_neg hp] at h
        simp only [List.head?_cons, Option.some.injEq] at h
        subst h
        exact Bool.not_eq_true _ |>.mp hp

theorem stripChar_decomp (c : Char) (s : String) :
    (∃ a b, s.toList = List.replicate a c ++ (stripChar c s).toList
        ++ List.replicate b c) ∧
    (stripChar c s).toList.head? ≠ some c ∧
    (stripChar c s).toList.getLast? ≠ some c := by
  have hstrip : (stripChar c s).toList =
      (((s.toList.dropWhile (· = c)).reverse.dropWhile (· = c)).reverse) := rfl
  have h1 : s.toList = s.toList.takeWhile (· = c) ++ s.toList.dropWhile (· = c) :=
    (List.takeWhile_append_dropWhile (· = c) s.toList).symm
  have htake : ∀ l : List Char, l.takeWhile (· = c) =
      List.replicate (l.takeWhile (· = c)).length c := by
    intro l
    refine List.eq_replicate_of_mem ?_
    intro b hb
    have := List.mem_takeWhile_imp hb
    simpa using this
  have h4 : s.toList.dropWhile (· = c) = (stripChar c s).toList
      ++ ((s.toList.dropWhile (· = c)).reverse.takeWhile (· = c)).reverse := by
    rw [hstrip]
    conv_lhs => rw [← List.reverse_reverse (s.toList.dropWhile (· = c))]
    conv_lhs =>
      rw [← List.takeWhile_append_dropWhile (· = c)
        (s.toList.dropWhile (· = c)).reverse]
    rw [List.reverse_append]
  refine ⟨⟨(s.toList.takeWhile (· = c)).length,
      ((s.toList.dropWhile (· = c)).reverse.takeWhile (· = c)).length, ?_⟩, ?_, ?_⟩
  · conv_lhs => rw [h1, h4]
    rw [List.append_assoc]
    congr 1
    · exact htake s.toList
    · congr 1
      rw [htake (s.toList.dropWhile (· = c)).reverse, List.reverse_replicate,
        List.length_replicate]
  · intro hc
    rcases hsl : (stripChar c s).toList with _ | ⟨x, rest⟩
    · rw [hsl] at hc
      simp at hc
    · rw [hsl] at hc
      simp only [List.head?_cons, Option.some.injEq] at hc
      -- the head of the stripped list is the head of `dropWhile` of the input
      have hhead : (s.toList.dropWhile (· = c)).head? = some x := by
        rw [h4, hsl]
        rfl
      have hne := head?_dropWhile_ne (· = c) s.toList x hhead
      rw [hc] at hne
      simp at hne
  · rw [hstrip]
    intro hc
    rw [List.getLast?_reverse] at hc
    have := head?_dropWhile_ne (· = c) (s.toList.dropWhile (· = c)).reverse c hc
    simp at this

theorem length_msgBoth (s : String) : (msgBoth s).length = s.length + 70 := by
  simp only [msgBoth, String.length_append]
  rw [show ("Invalid slug. Did you mean " : String).length = 27 from rfl,
    show (", without the leading and trailing slashes?" : String).length = 43 from rfl]
  omega

theorem length_msgLead (s : String) : (msgLead s).length = s.length + 55 := by
  simp only [msgLead, String.length_append]
  rw [show ("Invalid slug. Did you mean " : String).length = 27 from rfl,
    show (", without the leading slash?" : String).length = 28 from rfl]
  omega

theorem length_msgTrail (s : String) : (msgTrail s).length = s.length + 56 := by
  simp only [msgTrail, String.length_append]
  rw [show ("Invalid slug. Did you mean " : String).length = 27 from rfl,
    show (", without the trailing slash?" : String).length = 29 from rfl]
  omega

/-! ## Claim theorems -/

/-- C1: for every branch-candidate list and remainder, the branch-matching
loop of `_parse_slug` selects the first branch in listing order whose name
followed by `/` is an initial segment of the remainder, returning it together
with the remainder after the branch and slash; a branch that merely prefixes
the remainder without a following `/` never matches (any selected branch
satisfies the slash condition); with no matching candidate it fails with
`InvalidSlug`; in particular candidates `["master", "master-v2"]` with
remainder `"master-v2/ps1"` give branch `"master-v2"` and problem `"ps1"`,
never `"master"`. -/
theorem parseBranchFrom_first_match (branches : List String) (remainder slug : String) :
    (parseBranchFrom branches remainder slug =
      match branches.find? (fun b => pyStartsWith remainder (b ++ "/")) with
      | some b => .ok (b, pyDrop remainder (b.length + 1))
      | none => .error (.invalidSlug slug)) ∧
    (∀ b rest, parseBranchFrom branches remainder slug = .ok (b, rest) →
       pyStartsWith remainder (b ++ "/") = true ∧
       rest = pyDrop remainder (b.length + 1)) ∧
    parseBranchFrom ["master", "master-v2"] "master-v2/ps1" slug =
      .ok ("master-v2", "ps1") := by
  have hmain : parseBranchFrom branches remainder slug =
      match branches.find? (fun b => pyStartsWith remainder (b ++ "/")) with
      | some b => .ok (b, pyDrop remainder (b.length + 1))
      | none => .error (.invalidSlug slug) := by
    induction branches with
    | nil => rfl
    | cons b rest ih =>
        cases hb : pyStartsWith remainder (b ++ "/") with
        | true => simp [parseBranchFrom, List.find?, hb]
        | false =>
            have hstep : parseBranchFrom (b :: rest) remainder slug =
                parseBranchFrom rest remainder slug := by
              simp [parseBranchFrom, hb]
            have hfind : List.find? (fun b => pyStartsWith remainder (b ++ "/"))
                (b :: rest) =
                List.find? (fun b => pyStartsWith remainder (b ++ "/")) rest := by
              simp [List.find?, hb]
            rw [hstep, hfind]
            exact ih
  refine ⟨hmain, ?_, ?_⟩
  · intro b rest hok
    rw [hmain] at hok
    rcases hf : branches.find? (fun b => pyStartsWith remainder (b ++ "/"))
      with _ | b'
    · rw [hf] at hok
      exact Except.noConfusion hok
    · rw [hf] at hok
      simp only [Except.ok.injEq, Prod.mk.injEq] at hok
      obtain ⟨hb1, hb2⟩ := hok
      subst hb1
      have hpb := List.find?_some hf
      exact ⟨hpb, hb2.symm⟩
  · rfl

theorem parseBranchFrom_first_match_witness :
    parseBranchFrom ["master", "master-v2"] "master-v2/ps1"
        "cs50/problems2/master-v2/ps1" = .ok ("master-v2", "ps1") ∧
      pyStartsWith "master-v2/ps1" ("master-v2" ++ "/") = true :=
  ⟨(parseBranchFrom_first_match ["master", "master-v2"] "master-v2/ps1"
      "cs50/problems2/master-v2/ps1").2.2,
   ((parseBranchFrom_first_match ["master", "master-v2"] "master-v2/ps1"
      "cs50/problems2/master-v2/ps1").2.1 "master-v2" "ps1"
     (parseBranchFrom_first_match ["master", "master-v2"] "master-v2/ps1"
      "cs50/problems2/master-v2/ps1").2.2).1⟩

/-- C2 counterexample: when the credential-cache erase command itself raises
(here a `GitError`), that exception — not the original one — propagates out of
the handler, and the keychain erase is never attempted; so erase errors are
not ignored and the original exception is not re-raised unchanged. -/
theorem httpsFailureCleanup_cacheExit_error_not_ignored :
    (httpsFailureCleanup (.error "boom") (some .gitError) none).2 ≠
        PyExc.error "boom" ∧
      CleanupAction.keychainErase ∉
        (httpsFailureCleanup (.error "boom") (some .gitError) none).1 := by
  constructor
  · intro h
    simp [httpsFailureCleanup] at h
  · intro h
    simp [httpsFailureCleanup] at h

/-- C2 (amended): for every exception raised inside HTTPS authentication
after the credential-fill step, the credential-cache erase command is issued
first; if that erase itself raises, its exception propagates in place of the
original and the keychain erase is skipped; otherwise the OS-keychain erase
is attempted, a `GitError` from it is ignored, any other exception from it
propagates, and the original exception is re-raised unchanged. -/
theorem httpsFailureCleanup_spec (orig : PyExc) (ce ke : Option PyExc) :
    (httpsFailureCleanup orig ce ke).1.head? = some CleanupAction.cacheExit ∧
    (ce = none → ke = none ∨ ke = some .gitError →
       httpsFailureCleanup orig ce ke =
         ([CleanupAction.cacheExit, CleanupAction.keychainErase], orig)) ∧
    (∀ e, ce = some e → httpsFailureCleanup orig ce ke =
       ([CleanupAction.cacheExit], e)) ∧
    (ce = none → ∀ e, ke = some e → e ≠ PyExc.gitError →
       httpsFailureCleanup orig ce ke =
         ([CleanupAction.cacheExit, CleanupAction.keychainErase], e)) := by
  refine ⟨?_, ?_, ?_, ?_⟩
  · rcases ce with _ | e
    · rcases ke with _ | e
      · rfl
      · by_cases he : e = PyExc.gitError
        · subst he
          rfl
        · simp [httpsFailureCleanup, he]
    · rfl
  · rintro rfl (rfl | rfl)
    · rfl
    · rfl
  · rintro e rfl
    rfl
  · rintro rfl e rfl he
    simp [httpsFailureCleanup, he]

theorem httpsFailureCleanup_spec_witness :
    httpsFailureCleanup (.error "x") none (some .gitError) =
      ([CleanupAction.cacheExit, CleanupAction.keychainErase], PyExc.error "x") :=
  (httpsFailureCleanup_spec (.error "x") none (some .gitError)).2.1 rfl (Or.inr rfl)

/-- C3: whenever the merge produces a config, that config agrees per tool and
per key with the spec's rule — root-sequence followed by local-sequence when
the key is in both and the root's value is a sequence, local override for
every other key in both, pass-through for keys on one side only — and a tool
is present in the result iff it is present in an input; in particular the
claim's concrete example merges exactly as stated. -/
theorem mergeCs50Yaml_spec (cs50 root m : Dict (Dict Val))
    (h : mergeCs50Yaml cs50 root = .ok m)
    (h1 : (cs50.map Prod.fst).Nodup)
    (h3 : ∀ p ∈ cs50, ((p.2 : Dict Val).map Prod.fst).Nodup) :
    (∀ t k, lookup2 m t k = specMergeVal (lookup2 cs50 t k) (lookup2 root t k)) ∧
    (∀ t, (lookupD m t).isSome =
      ((lookupD cs50 t).isSome || (lookupD root t).isSome)) ∧
    mergeCs50Yaml
        [("a", [("include", Val.vList [Val.vStr "x"])]), ("b", [("req", Val.vNat 1)])]
        [("a", [("include", Val.vList [Val.vStr "y"])]), ("c", [("req", Val.vNat 2)])] =
      .ok [("a", [("include", Val.vList [Val.vStr "y", Val.vStr "x"])]),
           ("c", [("req", Val.vNat 2)]), ("b", [("req", Val.vNat 1)])] :=
  ⟨mergeCs50Yaml_spec_of_ok cs50 root m h h1 h3,
   mergeCs50Yaml_keys_of_ok cs50 root m h h1, rfl⟩

theorem mergeCs50Yaml_spec_witness :
    mergeCs50Yaml
        [("a", [("include", Val.vList [Val.vStr "x"])]), ("b", [("req", Val.vNat 1)])]
        [("a", [("include", Val.vList [Val.vStr "y"])]), ("c", [("req", Val.vNat 2)])] =
      .ok [("a", [("include", Val.vList [Val.vStr "y", Val.vStr "x"])]),
           ("c", [("req", Val.vNat 2)]), ("b", [("req", Val.vNat 1)])] ∧
    lookup2 [("a", [("include", Val.vList [Val.vStr "y", Val.vStr "x"])]),
           ("c", [("req", Val.vNat 2)]), ("b", [("req", Val.vNat 1)])] "a" "include" =
      some (Val.vList [Val.vStr "y", Val.vStr "x"]) := by
  have h := mergeCs50Yaml_spec
    [("a", [("include", Val.vList [Val.vStr "x"])]), ("b", [("req", Val.vNat 1)])]
    [("a", [("include", Val.vList [Val.vStr "y"])]), ("c", [("req", Val.vNat 2)])]
    [("a", [("include", Val.vList [Val.vStr "y", Val.vStr "x"])]),
     ("c", [("req", Val.vNat 2)]), ("b", [("req", Val.vNat 1)])]
    rfl (by decide) (by decide)
  exact ⟨h.2.2, (h.1 "a" "include").trans rfl⟩

/-- C4: the SSH probe spawns `ssh git@github.com` and closes the child in
every branch before yielding; it yields an identity iff the success banner
matched, with the captured username and no password; the passphrase-prompt,
permission-denied and host-key branches all yield an absent result (no
exception is possible: the embedding is a total function). -/
theorem authenticateSsl_spec (org : String) (o : SshOutcome) :
    (authenticateSsl org o).1 =
        [SshAction.spawn "ssh git@github.com", SshAction.close] ∧
    (∀ u, o = .success u →
       (authenticateSsl org o).2 = some
         { name := u, password := none,
           email := u ++ "@users.noreply.github.com",
           repo := "git@github.com/" ++ org ++ "/" ++ u }) ∧
    (o = .passphrasePrompt ∨ o = .permissionDenied ∨ o = .hostKeyPrompt →
       (authenticateSsl org o).2 = none) ∧
    ((authenticateSsl org o).2.isSome ↔ ∃ u, o = SshOutcome.success u) := by
  cases o with
  | success u =>
      refine ⟨rfl, ?_, ?_, ?_⟩
      · rintro u' h
        cases h
        rfl
      · rintro (h | h | h) <;> cases h
      · simp [authenticateSsl]
  | passphrasePrompt =>
      refine ⟨rfl, ?_, fun _ => rfl, ?_⟩
      · rintro u' h
        cases h
      · simp [authenticateSsl]
  | permissionDenied =>
      refine ⟨rfl, ?_, fun _ => rfl, ?_⟩
      · rintro u' h
        cases h
      · simp [authenticateSsl]
  | hostKeyPrompt =>
      refine ⟨rfl, ?_, fun _ => rfl, ?_⟩
      · rintro u' h
        cases h
      · simp [authenticateSsl]

theorem authenticateSsl_spec_witness :
    (authenticateSsl "org50" SshOutcome.permissionDenied).2 = none ∧
      SshAction.close ∈ (authenticateSsl "org50" SshOutcome.permissionDenied).1 :=
  ⟨(authenticateSsl_spec "org50" SshOutcome.permissionDenied).2.2.1
      (Or.inr (Or.inl rfl)),
   by
    rw [(authenticateSsl_spec "org50" SshOutcome.permissionDenied).1]
    simp⟩

/-- C5: whenever the validation response carries the `X-GitHub-OTP` header,
HTTPS authentication fails immediately with the personal-access-token
message, whatever the status code — it never reaches the
invalid-username/password handling (the two-factor message differs from both
status-code messages). -/
theorem authenticateHttpsCore_otp (org : String) (env : HttpsEnv)
    (h : env.response.hasOtpHeader = true) :
    authenticateHttpsCore org env = .error (.error twoFactorMsg) ∧
    twoFactorMsg ≠ "Invalid username and/or password." ∧
    twoFactorMsg ≠ "Could not authenticate user." := by
  refine ⟨?_, ?_, ?_⟩
  · simp only [authenticateHttpsCore, h, if_true]
  · intro he
    have hlen := congrArg String.length he
    rw [show (twoFactorMsg).length = 229 from rfl,
      show ("Invalid username and/or password." : String).length = 33 from rfl] at hlen
    exact absurd hlen (by omega)
  · intro he
    have hlen := congrArg String.length he
    rw [show (twoFactorMsg).length = 229 from rfl,
      show ("Could not authenticate user." : String).length = 28 from rfl] at hlen
    exact absurd hlen (by omega)

theorem authenticateHttpsCore_otp_witness :
    authenticateHttpsCore "org50"
        { fill := FillOutcome.creds "u" "p", inputUsername := "", inputPassword := "",
          response := { hasOtpHeader := true, statusCode := 401, login := "u" } } =
      .error (.error twoFactorMsg) :=
  (authenticateHttpsCore_otp "org50"
    { fill := FillOutcome.creds "u" "p", inputUsername := "", inputPassword := "",
      response := { hasOtpHeader := true, statusCode := 401, login := "u" } } rfl).1

/-- C6: an identity produced by HTTPS authentication carries the password
that was validated and approved into the cache (the approve action for that
password and the canonical username is in the trace); an identity produced by
SSH authentication has an absent password; in both paths the email is
`{name}@users.noreply.github.com`, the HTTPS remote is
`https://{name}@github.com/{org}/{name}`, and the SSH remote is
`git@github.com/{org}/{name}` with no colon after the host. -/
theorem identity_fields (org : String) (env : HttpsEnv) (o : SshOutcome)
    (trh : List HttpsAction) (uh : User) (trs : List SshAction) (us : User)
    (h1 : authenticateHttpsCore org env = .ok (trh, uh))
    (h2 : authenticateSsl org o = (trs, some us)) :
    (∃ p, uh.password = some p ∧ HttpsAction.credentialApprove uh.name p ∈ trh) ∧
    uh.email = uh.name ++ "@users.noreply.github.com" ∧
    uh.repo = "https://" ++ uh.name ++ "@github.com/" ++ org ++ "/" ++ uh.name ∧
    us.password = none ∧
    us.email = us.name ++ "@users.noreply.github.com" ∧
    us.repo = "git@github.com/" ++ org ++ "/" ++ us.name := by
  have hs : us.password = none ∧ us.email = us.name ++ "@users.noreply.github.com" ∧
      us.repo = "git@github.com/" ++ org ++ "/" ++ us.name := by
    cases o with
    | success u =>
        simp only [authenticateSsl, Prod.mk.injEq, Option.some.injEq] at h2
        obtain ⟨_, hu⟩ := h2
        subst hu
        exact ⟨rfl, rfl, rfl⟩
    | passphrasePrompt => simp [authenticateSsl] at h2
    | permissionDenied => simp [authenticateSsl] at h2
    | hostKeyPrompt => simp [authenticateSsl] at h2
  by_cases hotp : env.response.hasOtpHeader = true
  · simp only [authenticateHttpsCore, hotp, if_true] at h1
    exact Except.noConfusion h1
  · have hotp' : env.response.hasOtpHeader = false := by
      cases hb : env.response.hasOtpHeader
      · rfl
      · exact absurd hb hotp
    by_cases hst : env.response.statusCode = 200
    · simp only [authenticateHttpsCore, hotp', hst, Bool.false_eq_true, if_false,
        ne_eq, not_true_eq_false, Except.ok.injEq, Prod.mk.injEq] at h1
      obtain ⟨htr, huh⟩ := h1
      subst htr
      subst huh
      exact ⟨⟨_, rfl, by simp⟩, rfl, rfl, hs.1, hs.2.1, hs.2.2⟩
    · simp only [authenticateHttpsCore, hotp', hst, Bool.false_eq_true, if_false,
        ne_eq, not_false_eq_true, if_true] at h1
      exact Except.noConfusion h1

theorem identity_fields_witness :
    ((User.mk "alice" (some "p") "alice@users.noreply.github.com"
        "https://alice@github.com/org50/alice").password = some "p") ∧
    ((User.mk "bob" none "bob@users.noreply.github.com"
        "git@github.com/org50/bob").password = none) := by
  have h := identity_fields "org50"
    { fill := FillOutcome.creds "u" "p", inputUsername := "", inputPassword := "",
      response := { hasOtpHeader := false, statusCode := 200, login := "alice" } }
    (SshOutcome.success "bob") _ _ _ _ rfl rfl
  exact ⟨rfl, h.2.2.2.1⟩

/-- The store for the C7 witness: a local config `{"check50": {"k": 1}}` at
address 0 (tool dict at 1) and a root config `{"check50": {"k": 2}}` at
address 2 (tool dict at 3). -/
def exMergeInput : Store :=
  [HObj.hDict [("check50", HVal.hRef 1)], HObj.hDict [("k", HVal.hNat 1)],
   HObj.hDict [("check50", HVal.hRef 3)], HObj.hDict [("k", HVal.hNat 2)]]

/-- The store after merging `exMergeInput`'s configs: the first four objects
are untouched; the copied root lives at 4 and 5 with the local value merged
into the copy. -/
def exMergeOutput : Store :=
  [HObj.hDict [("check50", HVal.hRef 1)], HObj.hDict [("k", HVal.hNat 1)],
   HObj.hDict [("check50", HVal.hRef 3)], HObj.hDict [("k", HVal.hNat 2)],
   HObj.hDict [("k", HVal.hNat 1)], HObj.hDict [("check50", HVal.hRef 4)]]

theorem mergeH_frame_witness :
    mergeH 5 exMergeInput 0 2 = some (exMergeOutput, 5) ∧
      readS exMergeOutput 1 = readS exMergeInput 1 := by
  have hrun : mergeH 5 exMergeInput 0 2 = some (exMergeOutput, 5) := by
    simp [mergeH, deepcopyV, deepcopyEs, deepcopyVs, lookupMemo, readS, allocS,
      mergeHTools, mergeHTool, mergeHKeys, mergeHKey, getDictH, getItemH, setItemH,
      dictAddr, isListHp, pyAddHp, lookupD, setD, writeS, exMergeInput, exMergeOutput]
  refine ⟨hrun, ?_⟩
  have := mergeH_frame 5 exMergeInput 0 2 exMergeOutput 5 hrun 1 (by simp [exMergeInput])
  exact this

/-- C8: a slug with a leading slash, a trailing slash, or both is rejected
with `InvalidSlug`, with a distinct message for each of the three cases, each
suggesting the slug with exactly its leading and trailing slashes removed
(the suggested string neither starts nor ends with a slash, and restoring
some number of leading and trailing slashes gives back the slug). -/
theorem parseSlugParts_slashes (slug : String)
    (h : pyStartsWith slug "/" = true ∨ pyEndsWith slug "/" = true) :
    (pyStartsWith slug "/" = true → pyEndsWith slug "/" = true →
       parseSlugParts slug = .error (.invalidSlug (msgBoth (stripChar '/' slug)))) ∧
    (pyStartsWith slug "/" = true → pyEndsWith slug "/" = false →
       parseSlugParts slug = .error (.invalidSlug (msgLead (stripChar '/' slug)))) ∧
    (pyStartsWith slug "/" = false → pyEndsWith slug "/" = true →
       parseSlugParts slug = .error (.invalidSlug (msgTrail (stripChar '/' slug)))) ∧
    (msgBoth (stripChar '/' slug) ≠ msgLead (stripChar '/' slug) ∧
       msgBoth (stripChar '/' slug) ≠ msgTrail (stripChar '/' slug) ∧
       msgLead (stripChar '/' slug) ≠ msgTrail (stripChar '/' slug)) ∧
    (∃ a b, slug.toList = List.replicate a '/' ++ (stripChar '/' slug).toList
        ++ List.replicate b '/' ∧
      (stripChar '/' slug).toList.head? ≠ some '/' ∧
      (stripChar '/' slug).toList.getLast? ≠ some '/') := by
  refine ⟨?_, ?_, ?_, ⟨?_, ?_, ?_⟩, ?_⟩
  · intro hs he
    simp [parseSlugParts, hs, he]
  · intro hs he
    simp [parseSlugParts, hs, he]
  · intro hs he
    simp [parseSlugParts, hs, he]
  · intro he
    have hlen := congrArg String.length he
    rw [length_msgBoth, length_msgLead] at hlen
    omega
  · intro he
    have hlen := congrArg String.length he
    rw [length_msgBoth, length_msgTrail] at hlen
    omega
  · intro he
    have hlen := congrArg String.length he
    rw [length_msgLead, length_msgTrail] at hlen
    omega
  · exact ⟨(stripChar_decomp '/' slug).1.choose,
      (stripChar_decomp '/' slug).1.choose_spec.choose,
      (stripChar_decomp '/' slug).1.choose_spec.choose_spec,
      (stripChar_decomp '/' slug).2.1, (stripChar_decomp '/' slug).2.2⟩

theorem parseSlugParts_slashes_witness :
    parseSlugParts "/cs50/problems/" = .error (.invalidSlug
      "Invalid slug. Did you mean cs50/problems, without the leading and trailing slashes?") ∧
    parseSlugParts "/cs50/problems" = .error (.invalidSlug
      "Invalid slug. Did you mean cs50/problems, without the leading slash?") ∧
    parseSlugParts "cs50/problems/" = .error (.invalidSlug
      "Invalid slug. Did you mean cs50/problems, without the trailing slash?") :=
  ⟨(parseSlugParts_slashes "/cs50/problems/" (Or.inl rfl)).1 rfl rfl,
   (parseSlugParts_slashes "/cs50/problems" (Or.inl rfl)).2.1 rfl rfl,
   (parseSlugParts_slashes "cs50/problems/" (Or.inr rfl)).2.2.1 rfl rfl⟩

/-- C9: in `connect`, a `push50.Error` from fetching the optional root config
is swallowed — the flow proceeds exactly as with the local config alone,
running the required-files check on the local config's tool section; when the
root fetch succeeds, the root config is merged into the local config and the
required-files check runs on the merged config's tool section. -/
theorem connectModel_root_fetch (tool : String) (localCfg : Dict (Dict Val))
    (isFile : String → Bool) :
    (∀ e, e.isPushError = true → ∀ toolCfg, lookupD localCfg tool = some toolCfg →
       connectModel tool localCfg (.error e) isFile =
         match checkRequired toolCfg isFile with
         | .ok _ => .ok toolCfg
         | .error err => .error err) ∧
    (∀ root m toolCfg, (lookupD localCfg tool).isSome = true →
       mergeCs50Yaml localCfg root = .ok m → lookupD m tool = some toolCfg →
       connectModel tool localCfg (.ok root) isFile =
         match checkRequired toolCfg isFile with
         | .ok _ => .ok toolCfg
         | .error err => .error err) := by
  constructor
  · intro e he toolCfg htc
    simp only [connectModel, htc, he, if_true]
  · intro root m toolCfg hsome hm htc
    rcases hl : lookupD localCfg tool with _ | ltc
    · rw [hl] at hsome
      simp [Option.isSome] at hsome
    · simp only [connectModel, hl, hm, htc]

theorem connectModel_root_fetch_witness :
    connectModel "check50"
        [("check50", [("required", Val.vList [Val.vStr "hello.c"])])]
        (.error (.error "Invalid slug. Did you mean to submit something else?"))
        (fun _ => true) =
      .ok [("required", Val.vList [Val.vStr "hello.c"])] := by
  have h := (connectModel_root_fetch "check50"
    [("check50", [("required", Val.vList [Val.vStr "hello.c"])])] (fun _ => true)).1
    (.error "Invalid slug. Did you mean to submit something else?") rfl
    [("required", Val.vList [Val.vStr "hello.c"])] rfl
  rw [h]
  rfl

/-- C10: the merge's append-versus-override dispatch looks only at the type
of the root's value, so for any tool/key pair present in both configs whose
root value is a sequence while the local value is not, the concatenation
fails (`TypeError`) and the merge produces no result — merge is not total
over well-formed config pairs. -/
theorem mergeCs50Yaml_root_list_local_nonlist (cs50 root : Dict (Dict Val))
    (t k : String) (lt rt : Dict Val) (lv : Val) (xs : List Val)
    (h1 : (cs50.map Prod.fst).Nodup)
    (h3 : ∀ p ∈ cs50, ((p.2 : Dict Val).map Prod.fst).Nodup)
    (hlt : lookupD cs50 t = some lt) (hrt : lookupD root t = some rt)
    (hlv : lookupD lt k = some lv) (hrv : lookupD rt k = some (Val.vList xs))
    (hnl : lv.isList = false) :
    mergeCs50Yaml cs50 root = .error () := by
  rcases hm : mergeCs50Yaml cs50 root with e | m
  · cases e
    rfl
  · exfalso
    have main := mergeGo_lookup root cs50 root m h1 hm
    obtain ⟨curT, newT, hcur, hmt, _⟩ := ((main t).2 lt hlt).2 rt hrt
    rw [hrt] at hcur
    cases hcur
    have hltnd : (lt.map Prod.fst).Nodup := h3 (t, lt) (lookupD_mem hlt)
    have inner := mergeToolGo_lookup rt lt rt newT hltnd hmt
    obtain ⟨cur, nv, hc, hadd, _⟩ :=
      ((inner k).2 lv hlv).1 (Val.vList xs) hrv rfl
    rw [hrv] at hc
    cases hc
    cases lv with
    | vNat n => simp [pyAdd] at hadd
    | vStr s => simp [pyAdd] at hadd
    | vList ys => simp [Val.isList] at hnl

theorem mergeCs50Yaml_root_list_local_nonlist_witness :
    mergeCs50Yaml [("a", [("k", Val.vNat 1)])] [("a", [("k", Val.vList [Val.vNat 2])])] =
      .error () :=
  mergeCs50Yaml_root_list_local_nonlist
    [("a", [("k", Val.vNat 1)])] [("a", [("k", Val.vList [Val.vNat 2])])]
    "a" "k" [("k", Val.vNat 1)] [("k", Val.vList [Val.vNat 2])] (Val.vNat 1) [Val.vNat 2]
    (by decide) (by decide) rfl rfl rfl rfl rfl

end Push50
